import Mathlib

/-!
Shallow embedding of `workflow-health-check/workflow_health_check.py` and proofs
about its validation engine: the three-colour DFS cycle detector, the
field extractor, the `Report` accumulator, and the plan/issues validators.

Python dictionaries keyed by strings are modelled as association lists
(`List (String × α)`): lookup takes the most recent binding and update
prepends, which agrees with dictionary `get`/`[]=` semantics.
-/

/-- Association-list lookup `m.get(k)`: the most recent binding wins. -/
def dget {α : Type} (m : List (String × α)) (k : String) : Option α :=
  (m.find? (fun p => p.1 == k)).map Prod.snd

/-- Dictionary update `m[k] = v`, modelled by prepending a binding. -/
def dset {α : Type} (m : List (String × α)) (k : String) (v : α) : List (String × α) :=
  (k, v) :: m

/-- `edges.get(node, [])` (source line 167). -/
def edgesGet (E : List (String × List String)) (k : String) : List String :=
  (dget E k).getD []

/-- `state.get(nxt, 0)` (source line 168): an absent key reads as 0 (unseen). -/
def stGet (st : List (String × Nat)) (k : String) : Nat :=
  (dget st k).getD 0

/-- The cycle-reconstruction `while` loop of `dfs` (source lines 177-180):
`while cur != nxt and cur in parent: chain.append(cur); cur = parent[cur]`.
`fuel` bounds the number of iterations; `none` means the loop would not
have terminated within the supplied bound. -/
def chainLoop (fuel : Nat) (par : List (String × String)) (tgt cur : String)
    (chain : List String) : Option (List String) :=
  match fuel with
  | 0 => none
  | fuel + 1 =>
    if cur = tgt then some chain
    else
      match dget par cur with
      | none => some chain
      | some p => chainLoop fuel par tgt p (chain ++ [cur])

/-- Result of one `dfs` call: the returned cycle (if any) together with the two
mutated dictionaries `state` and `parent`; the outer `Option` is `none` when
the modelling fuel runs out. -/
abbrev DfsRes : Type :=
  Option (Option (List String) × List (String × Nat) × List (String × String))

/-- The `for nxt in edges.get(node, [])` loop inside `dfs` (source lines
167-185); `rec` is the recursive `dfs` call made for unseen targets. On normal
exit the node is marked done (`state[node] = 2`, line 184). -/
def dfsLoop (E : List (String × List String))
    (rec : String → List (String × Nat) → List (String × String) → DfsRes) :
    List String → String → List (String × Nat) → List (String × String) → DfsRes
  | [], node, st, par => some (none, dset st node 2, par)
  | nxt :: rest, node, st, par =>
    if stGet st nxt = 0 then
      match rec nxt st (dset par nxt node) with
      | none => none
      | some (some cycle, st1, par1) => some (some cycle, st1, par1)
      | some (none, st1, par1) => dfsLoop E rec rest node st1 par1
    else if stGet st nxt = 1 then
      match chainLoop (par.length + 1) par nxt node [nxt] with
      | none => none
      | some chain => some (some ((chain ++ [nxt]).reverse), st, par)
    else
      dfsLoop E rec rest node st par

/-- The recursive `dfs` of `detect_cycle` (source lines 165-185): mark the node
visiting (`state[node] = 1`, line 166) and run the loop over its targets.
`fuel` bounds the recursion depth. -/
def dfs (E : List (String × List String)) :
    Nat → String → List (String × Nat) → List (String × String) → DfsRes
  | 0, _, _, _ => none
  | fuel + 1, node, st, par =>
    dfsLoop E (dfs E fuel) (edgesGet E node) node (dset st node 1) par

/-- The outer `for node in nodes` loop of `detect_cycle` (source lines 187-191).
`state[node]` is a checked dictionary access: an absent key (Python `KeyError`)
is modelled by the `none` result. -/
def detectLoop (E : List (String × List String)) (F : Nat) (ns : List String)
    (st : List (String × Nat)) (par : List (String × String)) :
    Option (Option (List String)) :=
  match ns with
  | [] => some none
  | n :: rest =>
    match dget st n with
    | none => none
    | some s =>
      if s = 0 then
        match dfs E F n st par with
        | none => none
        | some (some cycle, _, _) => some (some cycle)
        | some (none, st1, par1) => detectLoop E F rest st1 par1
      else detectLoop E F rest st par

/-- Fuel sufficient for any run of `detect_cycle`: one more than the number of
distinct identifiers occurring as nodes or edge targets. -/
def dcFuel (nodes : List String) (E : List (String × List String)) : Nat :=
  ((nodes ++ (E.map Prod.snd).flatten).dedup).length + 1

/-- `detect_cycle(nodes, edges)` (source lines 161-192), instrumented: the outer
`none` means the Python run would not complete (modelling fuel exhausted, or a
`KeyError`); `some r` means the function returns `r`. -/
def detectCycleO (nodes : List String) (E : List (String × List String)) :
    Option (Option (List String)) :=
  detectLoop E (dcFuel nodes E) nodes (nodes.map (fun n => (n, 0))) []

/-- `detect_cycle` as the validators consume it. `detectCycleO` is proved total,
so the default branch is never taken. -/
def detect_cycle (nodes : List String) (E : List (String × List String)) :
    Option (List String) :=
  (detectCycleO nodes E).getD none

theorem chk1 : detect_cycle ["A", "B", "C"] [("A", ["B"]), ("B", ["C"]), ("C", [])] = none := by decide
theorem chk2 : detect_cycle ["A", "B"] [("A", ["B"]), ("B", ["A"])] = some ["A", "B", "A"] := by decide
theorem chk3 : detect_cycle ["A", "B", "C"] [("A", ["B"]), ("B", ["C"]), ("C", ["A"])] =
    some ["A", "B", "C", "A"] := by decide
theorem chk4 : detect_cycle [] [] = none := by decide
theorem chk5 : detect_cycle ["a"] [("a", ["a"])] = some ["a", "a"] := by decide
theorem chk6 : detect_cycle ["a"] [("a", ["b"]), ("b", ["a"])] = some ["a", "b", "a"] := by decide

/-! ### Dictionary lemmas -/

theorem dget_dset_self {α : Type} (m : List (String × α)) (k : String) (v : α) :
    dget (dset m k v) k = some v := by
  simp [dget, dset]

theorem dget_dset_ne {α : Type} (m : List (String × α)) {k k' : String} (h : k' ≠ k) (v : α) :
    dget (dset m k v) k' = dget m k' := by
  have hk : (k == k') = false := by simp [Ne.symm h]
  simp [dget, dset, List.find?, hk]

theorem stGet_dset_self (st : List (String × Nat)) (k : String) (v : Nat) :
    stGet (dset st k v) k = v := by
  simp [stGet, dget_dset_self]

theorem stGet_dset_ne (st : List (String × Nat)) {k k' : String} (h : k' ≠ k) (v : Nat) :
    stGet (dset st k v) k' = stGet st k' := by
  simp [stGet, dget_dset_ne _ h]

theorem stGet_eq_of_dget {st : List (String × Nat)} {n : String} {s : Nat}
    (h : dget st n = some s) : stGet st n = s := by
  simp [stGet, h]

/-- The initial `state` dictionary `{n: 0 for n in nodes}` reads 0 everywhere. -/
theorem stGet_init (nodes : List String) (v : String) :
    stGet (nodes.map (fun n => (n, 0))) v = 0 := by
  induction nodes with
  | nil => rfl
  | cons a l ih =>
    by_cases h : a = v
    · simp [stGet, dget, List.find?, h]
    · have hb : (a == v) = false := by simp [h]
      simpa only [List.map_cons, stGet, dget, List.find?, hb] using ih

theorem dget_init_isSome {nodes : List String} {n : String} (h : n ∈ nodes) :
    (dget ((nodes.map (fun n => (n, 0))) : List (String × Nat)) n).isSome = true := by
  induction nodes with
  | nil => simp at h
  | cons a l ih =>
    by_cases hv : a = n
    · simp [dget, List.find?, hv]
    · rcases List.mem_cons.mp h with h1 | h1
      · exact absurd h1.symm hv
      · have hb : (a == n) = false := by simp [hv]
        simpa only [List.map_cons, dget, List.find?, hb] using ih h1

/-! ### Walks, cycles and valid cycle witnesses -/

/-- `stepsB E a l b`: the list `l` is a walk from `a` to `b`, each step following
an adjacency of `E`. -/
def stepsB (E : List (String × List String)) : String → List String → String → Bool
  | a, [], b => a == b
  | a, x :: l, b => (edgesGet E a).contains x && stepsB E x l b

/-- The graph `(nodes are implicit) edges E` contains a closed walk. -/
def HasCycle (E : List (String × List String)) : Prop :=
  ∃ a l, l ≠ [] ∧ stepsB E a l a = true

/-- Every consecutive pair `(a, b)` of the list is an edge (`b ∈ E[a]`). -/
def chainOkB (E : List (String × List String)) : List String → Bool
  | a :: b :: rest => (edgesGet E a).contains b && chainOkB E (b :: rest)
  | _ => true

/-- Every consecutive pair `(a, b)` of the list is a reversed edge (`a ∈ E[b]`). -/
def revOkB (E : List (String × List String)) : List String → Bool
  | a :: b :: rest => (edgesGet E b).contains a && revOkB E (b :: rest)
  | _ => true

/-- What claim C2 requires of a returned cycle: length at least two, equal first
and last elements, and every consecutive pair an edge of `E`. -/
def ValidCycle (E : List (String × List String)) (c : List String) : Prop :=
  2 ≤ c.length ∧ c.head? = c.getLast? ∧ chainOkB E c = true

theorem chainOkB_append_of_getLast (E : List (String × List String)) :
    ∀ (l : List String) (a b : String), l.getLast? = some a →
      chainOkB E (l ++ [b]) = (chainOkB E l && (edgesGet E a).contains b) := by
  intro l
  induction l with
  | nil => intro a b h; simp at h
  | cons x t ih =>
    intro a b h
    cases t with
    | nil =>
      simp only [List.getLast?_singleton, Option.some_inj] at h
      subst h
      show ((edgesGet E x).contains b && chainOkB E [b]) = (chainOkB E [x] && _)
      simp [chainOkB]
    | cons y t' =>
      rw [List.getLast?_cons_cons] at h
      show ((edgesGet E x).contains y && chainOkB E ((y :: t') ++ [b])) = _
      rw [ih a b h]
      show _ = (((edgesGet E x).contains y && chainOkB E (y :: t')) && _)
      rw [Bool.and_assoc]

theorem chainOkB_reverse_of_revOk (E : List (String × List String)) :
    ∀ l : List String, revOkB E l = true → chainOkB E l.reverse = true := by
  intro l
  induction l with
  | nil => intro _; simp [chainOkB]
  | cons x t ih =>
    intro h
    cases t with
    | nil => simp [chainOkB]
    | cons y t' =>
      simp only [revOkB, Bool.and_eq_true] at h
      have hrev : chainOkB E ((y :: t').reverse) = true := ih h.2
      have hlast : (y :: t').reverse.getLast? = some y := by
        simp [List.getLast?_reverse]
      have : (x :: y :: t').reverse = (y :: t').reverse ++ [x] := by simp
      rw [this, chainOkB_append_of_getLast E _ y x hlast, hrev]
      simpa using h.1

/-! ### The DFS invariant -/

/-- Consecutive elements of the list are linked by the `parent` dictionary:
each entry points to its successor (its caller on the DFS stack). -/
def StackLinks (par : List (String × String)) : List String → Prop
  | [] => True
  | a :: rest => (∀ b, rest.head? = some b → dget par a = some b) ∧ StackLinks par rest

/-- The state value dictated by the DFS stack and the finished list:
1 (visiting) on the stack, 2 (done) when finished, 0 (unseen) otherwise. -/
def stVal (stack fin : List String) (v : String) : Nat :=
  if v ∈ stack then 1 else if v ∈ fin then 2 else 0

/-- Every `parent` entry is a graph edge: `parent[v] = w` means `v ∈ E[w]`. -/
def ParEdges (E : List (String × List String)) (par : List (String × String)) : Prop :=
  ∀ v w, dget par v = some w → v ∈ edgesGet E w

/-- Finish-order certificate: the list is ordered most-recently-finished first,
and every edge out of a finished node leads to an earlier-finished node. -/
def FinCert (E : List (String × List String)) : List String → Prop
  | [] => True
  | u :: rest => (∀ w ∈ edgesGet E u, w ∈ rest) ∧ FinCert E rest

/-- The invariant tying the Python `state`/`parent` dictionaries to the DFS
stack and the finish list. -/
structure DfsInv (E : List (String × List String)) (nodes : List String)
    (st : List (String × Nat)) (par : List (String × String))
    (stack fin : List String) : Prop where
  stv : ∀ v, stGet st v = stVal stack fin v
  keys : ∀ n ∈ nodes, (dget st n).isSome = true
  links : StackLinks par stack
  snodup : stack.Nodup
  fnodup : fin.Nodup
  disj : ∀ v ∈ stack, v ∉ fin
  pedges : ParEdges E par
  fcert : FinCert E fin
  slen : stack.length ≤ par.length + 1

/-- Number of still-unseen identifiers from the universe `U`. -/
def fresh (U : List String) (st : List (String × Nat)) : Nat :=
  (U.filter (fun v => stGet st v == 0)).length

theorem filter_length_mono {α : Type} (p q : α → Bool)
    (h : ∀ a, q a = true → p a = true) :
    ∀ l : List α, (l.filter q).length ≤ (l.filter p).length := by
  intro l
  induction l with
  | nil => simp
  | cons a t ih =>
    by_cases hq : q a = true
    · simp [List.filter_cons, hq, h a hq]; omega
    · have hq' : q a = false := by revert hq; cases q a <;> simp
      by_cases hp : p a = true
      · simp [List.filter_cons, hq', hp]; omega
      · have hp' : p a = false := by revert hp; cases p a <;> simp
        simpa [List.filter_cons, hq', hp'] using ih

theorem filter_length_lt {α : Type} (p q : α → Bool)
    (h : ∀ a, q a = true → p a = true) :
    ∀ (l : List α) (a₀ : α), a₀ ∈ l → p a₀ = true → q a₀ = false →
      (l.filter q).length < (l.filter p).length := by
  intro l
  induction l with
  | nil => intro a₀ h0; simp at h0
  | cons a t ih =>
    intro a₀ h0 hp0 hq0
    rcases List.mem_cons.mp h0 with rfl | hmem
    · simp only [List.filter_cons, hq0, hp0]
      have := filter_length_mono p q h t
      simp; omega
    · by_cases hq : q a = true
      · simp only [List.filter_cons, hq, h a hq]
        simpa using ih a₀ hmem hp0 hq0
      · have hq' : q a = false := by revert hq; cases q a <;> simp
        by_cases hp : p a = true
        · simp only [List.filter_cons, hq', hp]
          have := ih a₀ hmem hp0 hq0
          simp; omega
        · have hp' : p a = false := by revert hp; cases p a <;> simp
          simpa [List.filter_cons, hq', hp'] using ih a₀ hmem hp0 hq0

/-- One unseen member of `U` is positively counted by `fresh`. -/
theorem fresh_pos {U : List String} {st : List (String × Nat)} {n : String}
    (hU : n ∈ U) (h0 : stGet st n = 0) : 1 ≤ fresh U st := by
  have : n ∈ U.filter (fun v => stGet st v == 0) := by
    refine List.mem_filter.mpr ⟨hU, by simp [h0]⟩
  calc 1 ≤ (U.filter (fun v => stGet st v == 0)).length := by
        cases hf : U.filter (fun v => stGet st v == 0) with
        | nil => rw [hf] at this; simp at this
        | cons x xs => simp
    _ = fresh U st := rfl

theorem fresh_le_of_mono {U : List String} {st st' : List (String × Nat)}
    (h : ∀ v, stGet st' v = 0 → stGet st v = 0) : fresh U st' ≤ fresh U st := by
  refine filter_length_mono _ _ (fun a ha => ?_) U
  have := h a (by simpa using ha)
  simp [this]

theorem fresh_lt_of_flip {U : List String} {st st' : List (String × Nat)} {n : String}
    (hmono : ∀ v, stGet st' v = 0 → stGet st v = 0)
    (hU : n ∈ U) (h0 : stGet st n = 0) (h1 : stGet st' n ≠ 0) :
    fresh U st' < fresh U st := by
  refine filter_length_lt _ _ (fun a ha => ?_) U n hU (by simp [h0]) (by simpa using h1)
  have := hmono a (by simpa using ha)
  simp [this]

/-! ### Stack and chain lemmas -/

theorem stVal_one_iff (stack fin : List String) (v : String) :
    stVal stack fin v = 1 ↔ v ∈ stack := by
  by_cases h : v ∈ stack
  · simp [stVal, h]
  · by_cases h2 : v ∈ fin <;> simp [stVal, h, h2]

theorem stVal_zero_iff (stack fin : List String) (v : String) :
    stVal stack fin v = 0 ↔ (v ∉ stack ∧ v ∉ fin) := by
  by_cases h : v ∈ stack
  · simp [stVal, h]
  · by_cases h2 : v ∈ fin <;> simp [stVal, h, h2]

theorem stVal_two_iff (stack fin : List String) (v : String) :
    stVal stack fin v = 2 ↔ (v ∉ stack ∧ v ∈ fin) := by
  by_cases h : v ∈ stack
  · simp [stVal, h]
  · by_cases h2 : v ∈ fin <;> simp [stVal, h, h2]

theorem StackLinks_dset {par : List (String × String)} {l : List String} {k : String}
    (v : String) (hk : k ∉ l) (h : StackLinks par l) : StackLinks (dset par k v) l := by
  induction l with
  | nil => trivial
  | cons a rest ih =>
    refine ⟨fun b hb => ?_, ih (fun hm => hk (List.mem_cons_of_mem _ hm)) h.2⟩
    have hne : a ≠ k := fun he => hk (he ▸ List.mem_cons_self _ _)
    rw [dget_dset_ne _ hne]
    exact h.1 b hb

theorem StackLinks_prefix {par : List (String × String)} :
    ∀ (l₁ : List String) (t : String) (l₂ : List String),
      StackLinks par (l₁ ++ t :: l₂) → StackLinks par (l₁ ++ [t]) := by
  intro l₁
  induction l₁ with
  | nil =>
    intro t l₂ h
    exact ⟨fun b hb => by simp at hb, trivial⟩
  | cons a l₁' ih =>
    intro t l₂ h
    refine ⟨fun b hb => ?_, ih t l₂ h.2⟩
    apply h.1
    cases l₁' with
    | nil => simpa using hb
    | cons c l₁'' => simpa using hb

theorem chainLoop_stack :
    ∀ (S₁ : List String) (par : List (String × String)) (tgt : String)
      (acc : List String) (fuelc : Nat),
      tgt ∉ S₁ → StackLinks par (S₁ ++ [tgt]) → S₁.length < fuelc →
      chainLoop fuelc par tgt ((S₁ ++ [tgt]).headD tgt) acc = some (acc ++ S₁) := by
  intro S₁
  induction S₁ with
  | nil =>
    intro par tgt acc fuelc _ _ hf
    cases fuelc with
    | zero => omega
    | succ f => simp [chainLoop]
  | cons a S₁' ih =>
    intro par tgt acc fuelc htgt hlinks hf
    cases fuelc with
    | zero => simp at hf
    | succ f =>
      have hne : a ≠ tgt := fun he => htgt (he ▸ List.mem_cons_self _ _)
      have hhead : (S₁' ++ [tgt]).head? = some ((S₁' ++ [tgt]).headD tgt) := by
        cases S₁' <;> simp
      have hpar : dget par a = some ((S₁' ++ [tgt]).headD tgt) := hlinks.1 _ hhead
      have hrec := ih par tgt (acc ++ [a]) f
        (fun hm => htgt (List.mem_cons_of_mem _ hm)) hlinks.2 (by simpa using hf)
      simp only [List.cons_append, List.headD_cons, chainLoop, if_neg hne, hpar]
      rw [hrec]
      simp

theorem revOkB_links {E : List (String × List String)} {par : List (String × String)}
    (hpe : ParEdges E par) :
    ∀ l : List String, StackLinks par l → revOkB E l = true := by
  intro l
  induction l with
  | nil => intro _; rfl
  | cons a rest ih =>
    intro h
    cases rest with
    | nil => rfl
    | cons b rest' =>
      have hedge : a ∈ edgesGet E b := hpe a b (h.1 b (by simp))
      simp only [revOkB, Bool.and_eq_true]
      exact ⟨by simpa using hedge, ih h.2⟩

/-- A cycle reconstructed from the parent chain is a valid closed walk. -/
theorem foundCycle_valid {E : List (String × List String)} {par : List (String × String)}
    (S₁ : List String) (tgt : String)
    (hpe : ParEdges E par) (hlinks : StackLinks par (S₁ ++ [tgt]))
    (hedge : tgt ∈ edgesGet E ((S₁ ++ [tgt]).headD tgt)) :
    ValidCycle E (((tgt :: S₁) ++ [tgt]).reverse) := by
  refine ⟨?_, ?_, ?_⟩
  · simp
  · rw [List.head?_reverse, List.getLast?_reverse, List.getLast?_concat]
    simp
  · apply chainOkB_reverse_of_revOk
    cases S₁ with
    | nil =>
      simp only [List.nil_append, List.headD_cons] at hedge
      show ((edgesGet E tgt).contains tgt && revOkB E [tgt]) = true
      simp [revOkB, hedge]
    | cons a S₁' =>
      simp only [List.cons_append, List.headD_cons] at hedge
      show ((edgesGet E a).contains tgt && revOkB E (a :: (S₁' ++ [tgt]))) = true
      simp only [Bool.and_eq_true]
      exact ⟨by simpa using hedge, revOkB_links hpe _ hlinks⟩

/-! ### The main DFS specification -/

theorem stVal_push (node : String) (stack fin : List String) (v : String) (hv : v ≠ node) :
    stVal (node :: stack) fin v = stVal stack fin v := by
  simp [stVal, List.mem_cons, hv]

theorem stVal_pop (node : String) (stack fin : List String) (v : String) (hv : v ≠ node) :
    stVal (node :: stack) fin v = stVal stack (node :: fin) v := by
  by_cases h1 : v ∈ stack
  · simp [stVal, List.mem_cons, hv, h1]
  · by_cases h2 : v ∈ fin <;> simp [stVal, List.mem_cons, hv, h1, h2]

theorem keys_dset {st : List (String × Nat)} {nodes : List String} (k : String) (v : Nat)
    (h : ∀ n ∈ nodes, (dget st n).isSome = true) :
    ∀ n ∈ nodes, (dget (dset st k v) n).isSome = true := by
  intro n hn
  by_cases he : n = k
  · subst he; rw [dget_dset_self]; rfl
  · rw [dget_dset_ne _ he]; exact h n hn

theorem inv_st_mono {E : List (String × List String)} {nodes : List String}
    {st st' : List (String × Nat)} {par par' : List (String × String)}
    {stck fin fin' : List String}
    (h : DfsInv E nodes st par stck fin) (h' : DfsInv E nodes st' par' stck fin')
    (hsub : fin ⊆ fin') : ∀ v, stGet st' v = 0 → stGet st v = 0 := by
  intro v hv
  rw [h'.stv] at hv
  rw [h.stv]
  rcases (stVal_zero_iff _ _ _).mp hv with ⟨h1, h2⟩
  exact (stVal_zero_iff _ _ _).mpr ⟨h1, fun hm => h2 (hsub hm)⟩

/-- Specification of the value returned by one (possibly recursive) `dfs` call:
the call completes; on a `None` return the invariant is restored with the node
finished and strictly fewer unseen nodes; on a cycle return the cycle is valid. -/
def GoodRes (E : List (String × List String)) (nodes U : List String) (r : DfsRes)
    (node : String) (st : List (String × Nat)) (par : List (String × String))
    (stack fin : List String) : Prop :=
  ∃ res st1 par1, r = some (res, st1, par1) ∧ par.length ≤ par1.length ∧
    ((∃ fin1, res = none ∧ fin ⊆ fin1 ∧ node ∈ fin1 ∧ DfsInv E nodes st1 par1 stack fin1 ∧
        fresh U st1 < fresh U st) ∨
     (∃ c, res = some c ∧ ValidCycle E c))

theorem dfsLoop_spec (E : List (String × List String)) (nodes U : List String)
    (hU : ∀ v w, w ∈ edgesGet E v → w ∈ U) (fuel : Nat)
    (rec : String → List (String × Nat) → List (String × String) → DfsRes)
    (hrec : ∀ node st par stack fin,
      DfsInv E nodes st par stack fin →
      StackLinks par (node :: stack) →
      (node :: stack).length ≤ par.length + 1 →
      stGet st node = 0 → node ∈ U → fresh U st ≤ fuel →
      GoodRes E nodes U (rec node st par) node st par stack fin) :
    ∀ (nxts pre : List String) (node : String) (st : List (String × Nat))
      (par : List (String × String)) (stack fin : List String),
      DfsInv E nodes st par (node :: stack) fin →
      edgesGet E node = pre ++ nxts →
      (∀ x ∈ pre, x ∈ fin) →
      fresh U st ≤ fuel →
      ∃ res st1 par1, dfsLoop E rec nxts node st par = some (res, st1, par1) ∧
        par.length ≤ par1.length ∧
        ((∃ fin1, res = none ∧ fin ⊆ fin1 ∧
            DfsInv E nodes st1 par1 stack (node :: fin1) ∧
            (∀ v, stGet st1 v = 0 → stGet st v = 0)) ∨
         (∃ c, res = some c ∧ ValidCycle E c)) := by
  intro nxts
  induction nxts with
  | nil =>
    intro pre node st par stack fin hinv hedges hpre _
    have hnode_stack : node ∉ stack := by
      have := hinv.snodup
      exact (List.nodup_cons.mp this).1
    have hnode_fin : node ∉ fin := hinv.disj node (List.mem_cons_self _ _)
    refine ⟨none, dset st node 2, par, rfl, le_refl _, Or.inl ⟨fin, rfl, fun x h => h, ?_, ?_⟩⟩
    · refine ⟨?_, keys_dset _ _ hinv.keys, hinv.links.2, (List.nodup_cons.mp hinv.snodup).2,
        List.nodup_cons.mpr ⟨hnode_fin, hinv.fnodup⟩, ?_, hinv.pedges, ?_, ?_⟩
      · intro v
        by_cases hv : v = node
        · rw [hv, stGet_dset_self]
          have h2 : stVal stack (node :: fin) node = 2 :=
            (stVal_two_iff _ _ _).mpr ⟨hnode_stack, List.mem_cons_self _ _⟩
          omega
        · rw [stGet_dset_ne _ hv, hinv.stv v, stVal_pop node stack fin v hv]
      · intro v hv
        have hvne : v ≠ node := fun he => hnode_stack (he ▸ hv)
        intro hmem
        rcases List.mem_cons.mp hmem with he | hmem2
        · exact hvne he
        · exact hinv.disj v (List.mem_cons_of_mem _ hv) hmem2
      · refine ⟨fun w hw => ?_, hinv.fcert⟩
        apply hpre
        rw [List.append_nil] at hedges
        exact hedges ▸ hw
      · have := hinv.slen
        simp at this ⊢
        omega
    · intro v hv
      by_cases he : v = node
      · subst he; rw [stGet_dset_self] at hv; omega
      · rwa [stGet_dset_ne _ he] at hv
  | cons nxt rest ih =>
    intro pre node st par stack fin hinv hedges hpre hfuel
    have hnedge : nxt ∈ edgesGet E node := by
      rw [hedges]; exact List.mem_append_right _ (List.mem_cons_self _ _)
    by_cases h0 : stGet st nxt = 0
    · -- unseen target: recursive call
      have hzero : nxt ∉ (node :: stack) ∧ nxt ∉ fin := by
        have := hinv.stv nxt
        rw [h0] at this
        exact (stVal_zero_iff _ _ _).mp this.symm
      have hparlen : (dset par nxt node).length = par.length + 1 := rfl
      have hinvc : DfsInv E nodes st (dset par nxt node) (node :: stack) fin := by
        refine ⟨hinv.stv, hinv.keys, StackLinks_dset node hzero.1 hinv.links,
          hinv.snodup, hinv.fnodup, hinv.disj, ?_, hinv.fcert, ?_⟩
        case refine_2 =>
          have := hinv.slen
          rw [hparlen]
          omega
        intro v w hvw
        by_cases hv : v = nxt
        · subst hv
          rw [dget_dset_self] at hvw
          cases hvw
          exact hnedge
        · rw [dget_dset_ne _ hv] at hvw
          exact hinv.pedges v w hvw
      have hlinkc : StackLinks (dset par nxt node) (nxt :: node :: stack) := by
        refine ⟨fun b hb => ?_, StackLinks_dset node hzero.1 hinv.links⟩
        simp only [List.head?_cons, Option.some_inj] at hb
        rw [← hb, dget_dset_self]
      have hlenc : (nxt :: node :: stack).length ≤ (dset par nxt node).length + 1 := by
        have h2 : (nxt :: node :: stack).length = (node :: stack).length + 1 := rfl
        have h3 := hinv.slen
        rw [h2, hparlen]
        omega
      have hgood := hrec nxt st (dset par nxt node) (node :: stack) fin hinvc hlinkc hlenc
        h0 (hU node nxt hnedge) hfuel
      obtain ⟨res0, stc, parc, heq, hplen, hcase⟩ := hgood
      rcases hcase with ⟨fin1, hres0, hsub, hnxtfin, hinvc2, hfresh⟩ | ⟨c, hres0, hvc⟩
      · subst hres0
        have hih := ih (pre ++ [nxt]) node stc parc stack fin1 hinvc2
          (by rw [hedges]; simp) 
          (by
            intro x hx
            rcases List.mem_append.mp hx with hx1 | hx2
            · exact hsub (hpre x hx1)
            · simp at hx2; exact hx2 ▸ hnxtfin)
          (by omega)
        obtain ⟨res, st1, par1, heq2, hplen2, hcase2⟩ := hih
        refine ⟨res, st1, par1, ?_, by rw [hparlen] at hplen; omega, ?_⟩
        · simp only [dfsLoop, if_pos h0, heq]
          exact heq2
        · rcases hcase2 with ⟨fin2, hres, hsub2, hinv2, hmono2⟩ | hcyc
          · refine Or.inl ⟨fin2, hres, fun x hx => hsub2 (hsub hx), hinv2, ?_⟩
            intro v hv
            exact inv_st_mono hinvc hinvc2 hsub v (hmono2 v hv)
          · exact Or.inr hcyc
      · subst hres0
        refine ⟨some c, stc, parc, ?_, by rw [hparlen] at hplen; omega,
          Or.inr ⟨c, rfl, hvc⟩⟩
        simp only [dfsLoop, if_pos h0, heq]
    · by_cases h1 : stGet st nxt = 1
      · -- visiting target: a cycle closes
        have hmem : nxt ∈ (node :: stack) := by
          have := hinv.stv nxt
          rw [h1] at this
          exact (stVal_one_iff _ _ _).mp this.symm
        obtain ⟨S₁, S₂, hsplit⟩ := List.append_of_mem hmem
        have hnodup : (S₁ ++ nxt :: S₂).Nodup := hsplit ▸ hinv.snodup
        have hnotS₁ : nxt ∉ S₁ := by
          have hdisj := List.disjoint_of_nodup_append hnodup
          exact fun hx => hdisj hx (List.mem_cons_self _ _)
        have hheadD : node = (S₁ ++ [nxt]).headD nxt := by
          cases S₁ with
          | nil =>
            simp only [List.nil_append] at hsplit
            have : node = nxt := by
              have := congrArg List.head? hsplit
              simpa using this
            simpa using this
          | cons a S₁' =>
            simp only [List.cons_append] at hsplit
            have : node = a := by
              have := congrArg List.head? hsplit
              simpa using this
            simpa using this
        have hlinks₁ : StackLinks par (S₁ ++ [nxt]) :=
          StackLinks_prefix S₁ nxt S₂ (hsplit ▸ hinv.links)
        have hchainfuel : S₁.length < par.length + 1 := by
          have h2 := hinv.slen
          have hlen : (node :: stack).length = S₁.length + (S₂.length + 1) := by
            rw [hsplit]; simp
          omega
        have hchain := chainLoop_stack S₁ par nxt [nxt] (par.length + 1)
          hnotS₁ hlinks₁ hchainfuel
        rw [← hheadD] at hchain
        have hvalid := foundCycle_valid S₁ nxt hinv.pedges hlinks₁
          (hheadD ▸ hnedge)
        refine ⟨some (((nxt :: S₁) ++ [nxt]).reverse), st, par, ?_, le_refl _,
          Or.inr ⟨_, rfl, hvalid⟩⟩
        simp only [dfsLoop, if_neg h0, if_pos h1, hchain]
        rfl
      · -- finished target: skip
        have hfin : nxt ∈ fin := by
          have hsv := (hinv.stv nxt).symm
          by_cases hm : nxt ∈ (node :: stack)
          · exact absurd (hsv.symm.trans ((stVal_one_iff _ _ _).mpr hm)) h1
          · by_cases hf : nxt ∈ fin
            · exact hf
            · exact absurd (hsv.symm.trans ((stVal_zero_iff _ _ _).mpr ⟨hm, hf⟩)) h0
        have hih := ih (pre ++ [nxt]) node st par stack fin hinv
          (by rw [hedges]; simp)
          (by
            intro x hx
            rcases List.mem_append.mp hx with hx1 | hx2
            · exact hpre x hx1
            · simp at hx2; exact hx2 ▸ hfin)
          hfuel
        obtain ⟨res, st1, par1, heq2, hplen2, hcase2⟩ := hih
        refine ⟨res, st1, par1, ?_, hplen2, hcase2⟩
        simp only [dfsLoop, if_neg h0, if_neg h1]
        exact heq2

theorem dfs_spec (E : List (String × List String)) (nodes U : List String)
    (hU : ∀ v w, w ∈ edgesGet E v → w ∈ U) :
    ∀ (fuel : Nat) (node : String) (st : List (String × Nat))
      (par : List (String × String)) (stack fin : List String),
      DfsInv E nodes st par stack fin →
      StackLinks par (node :: stack) →
      (node :: stack).length ≤ par.length + 1 →
      stGet st node = 0 → node ∈ U → fresh U st ≤ fuel →
      GoodRes E nodes U (dfs E fuel node st par) node st par stack fin := by
  intro fuel
  induction fuel with
  | zero =>
    intro node st par stack fin _ _ _ h0 hUU hf
    have := fresh_pos hUU h0
    omega
  | succ f ihf =>
    intro node st par stack fin hinv hlink hlen h0 hUU hf
    have hzero : node ∉ stack ∧ node ∉ fin := by
      have := hinv.stv node
      rw [h0] at this
      exact (stVal_zero_iff _ _ _).mp this.symm
    have hmono1 : ∀ v, stGet (dset st node 1) v = 0 → stGet st v = 0 := by
      intro v hv
      by_cases he : v = node
      · rw [he, stGet_dset_self] at hv; omega
      · rwa [stGet_dset_ne _ he] at hv
    have hflip : fresh U (dset st node 1) < fresh U st := by
      refine fresh_lt_of_flip hmono1 hUU h0 ?_
      rw [stGet_dset_self]; omega
    have hinv1 : DfsInv E nodes (dset st node 1) par (node :: stack) fin := by
      refine ⟨?_, keys_dset _ _ hinv.keys, hlink,
        List.nodup_cons.mpr ⟨hzero.1, hinv.snodup⟩, hinv.fnodup, ?_,
        hinv.pedges, hinv.fcert, hlen⟩
      · intro v
        by_cases hv : v = node
        · rw [hv, stGet_dset_self]
          have : stVal (node :: stack) fin node = 1 :=
            (stVal_one_iff _ _ _).mpr (List.mem_cons_self _ _)
          omega
        · rw [stGet_dset_ne _ hv, hinv.stv v, stVal_push node stack fin v hv]
      · intro v hv
        rcases List.mem_cons.mp hv with he | hmem
        · exact he ▸ hzero.2
        · exact hinv.disj v hmem
    have hspec := dfsLoop_spec E nodes U hU f (dfs E f) (ihf) (edgesGet E node) []
      node (dset st node 1) par stack fin hinv1 (by simp) (by intro x hx; simp at hx)
      (by omega)
    obtain ⟨res, st1, par1, heq, hplen, hcase⟩ := hspec
    refine ⟨res, st1, par1, ?_, hplen, ?_⟩
    · simp only [dfs]
      exact heq
    · rcases hcase with ⟨fin1, hres, hsub, hinv2, hmono2⟩ | hcyc
      · refine Or.inl ⟨node :: fin1, hres, fun x hx => List.mem_cons_of_mem _ (hsub hx),
          List.mem_cons_self _ _, hinv2, ?_⟩
        have hmono : ∀ v, stGet st1 v = 0 → stGet st v = 0 :=
          fun v hv => hmono1 v (hmono2 v hv)
        refine fresh_lt_of_flip hmono hUU h0 ?_
        have := hinv2.stv node
        rw [this]
        have : stVal stack (node :: fin1) node = 2 :=
          (stVal_two_iff _ _ _).mpr ⟨hzero.1, List.mem_cons_self _ _⟩
        omega
      · exact Or.inr hcyc

theorem detectLoop_spec (E : List (String × List String)) (nodes U : List String)
    (hU : ∀ v w, w ∈ edgesGet E v → w ∈ U) (hnodesU : ∀ n ∈ nodes, n ∈ U) (F : Nat) :
    ∀ (ns : List String) (st : List (String × Nat)) (par : List (String × String))
      (fin : List String),
      DfsInv E nodes st par [] fin →
      (∀ n ∈ ns, n ∈ nodes) →
      fresh U st ≤ F →
      ∃ r, detectLoop E F ns st par = some r ∧
        ((∃ c, r = some c ∧ ValidCycle E c) ∨
         (r = none ∧ ∃ fin1, fin ⊆ fin1 ∧ FinCert E fin1 ∧ fin1.Nodup ∧
            ∀ n ∈ ns, n ∈ fin1)) := by
  intro ns
  induction ns with
  | nil =>
    intro st par fin hinv _ _
    exact ⟨none, rfl, Or.inr ⟨rfl, fin, fun x h => h, hinv.fcert, hinv.fnodup,
      by intro n hn; simp at hn⟩⟩
  | cons n rest ih =>
    intro st par fin hinv hns hfuel
    have hnn : n ∈ nodes := hns n (List.mem_cons_self _ _)
    have hsome := hinv.keys n hnn
    obtain ⟨s, hs⟩ := Option.isSome_iff_exists.mp hsome
    have hsval : s = stVal [] fin n := by
      have := hinv.stv n
      rw [stGet_eq_of_dget hs] at this
      exact this
    by_cases h0 : s = 0
    · have hst0 : stGet st n = 0 := by rw [stGet_eq_of_dget hs, h0]
      have hgood := dfs_spec E nodes U hU F n st par [] fin hinv
        ⟨fun b hb => by simp at hb, trivial⟩ (by simp) hst0 (hnodesU n hnn) hfuel
      obtain ⟨res, st1, par1, heq, _, hcase⟩ := hgood
      rcases hcase with ⟨fin1, hres, hsub, hnfin, hinv2, hfresh⟩ | ⟨c, hres, hvc⟩
      · subst hres
        have hih := ih st1 par1 fin1 hinv2
          (fun m hm => hns m (List.mem_cons_of_mem _ hm)) (by omega)
        obtain ⟨r, heq2, hcase2⟩ := hih
        refine ⟨r, ?_, ?_⟩
        · simp only [detectLoop, hs, if_pos h0, heq]
          exact heq2
        · rcases hcase2 with hcyc | ⟨hrn, fin2, hsub2, hcert2, hnd2, hmem2⟩
          · exact Or.inl hcyc
          · refine Or.inr ⟨hrn, fin2, fun x hx => hsub2 (hsub hx), hcert2, hnd2, ?_⟩
            intro m hm
            rcases List.mem_cons.mp hm with he | hmem
            · exact he ▸ hsub2 hnfin
            · exact hmem2 m hmem
      · subst hres
        refine ⟨some c, ?_, Or.inl ⟨c, rfl, hvc⟩⟩
        simp only [detectLoop, hs, if_pos h0, heq]
    · have hnfin : n ∈ fin := by
        rw [hsval] at h0
        by_cases hf : n ∈ fin
        · exact hf
        · exact absurd ((stVal_zero_iff _ _ _).mpr ⟨by simp, hf⟩) h0
      have hih := ih st par fin hinv (fun m hm => hns m (List.mem_cons_of_mem _ hm)) hfuel
      obtain ⟨r, heq2, hcase2⟩ := hih
      refine ⟨r, ?_, ?_⟩
      · simp only [detectLoop, hs, if_neg h0]
        exact heq2
      · rcases hcase2 with hcyc | ⟨hrn, fin2, hsub2, hcert2, hnd2, hmem2⟩
        · exact Or.inl hcyc
        · refine Or.inr ⟨hrn, fin2, hsub2, hcert2, hnd2, ?_⟩
          intro m hm
          rcases List.mem_cons.mp hm with he | hmem
          · exact he ▸ hsub2 hnfin
          · exact hmem2 m hmem

/-! ### From the finish certificate to acyclicity -/

/-- Rank of an identifier in a finish list: length of the suffix starting at its
first occurrence (0 when absent). -/
def rankIn : List String → String → Nat
  | [], _ => 0
  | u :: rest, v => if v = u then rest.length + 1 else rankIn rest v

theorem rankIn_le_length (fin : List String) (v : String) : rankIn fin v ≤ fin.length := by
  induction fin with
  | nil => simp [rankIn]
  | cons u rest ih =>
    by_cases h : v = u
    · simp [rankIn, h]
    · simp only [rankIn, if_neg h, List.length_cons]
      omega

theorem rank_lt_of_edge {E : List (String × List String)} :
    ∀ (fin : List String), FinCert E fin → fin.Nodup →
      ∀ u ∈ fin, ∀ w ∈ edgesGet E u, w ∈ fin ∧ rankIn fin w < rankIn fin u := by
  intro fin
  induction fin with
  | nil => intro _ _ u hu; simp at hu
  | cons u₀ rest ih =>
    intro hcert hnd u hu w hw
    have hnd' := List.nodup_cons.mp hnd
    rcases List.mem_cons.mp hu with he | hmem
    · subst he
      have hwrest : w ∈ rest := hcert.1 w hw
      have hwne : w ≠ u := fun hh => hnd'.1 (hh ▸ hwrest)
      refine ⟨List.mem_cons_of_mem _ hwrest, ?_⟩
      have hle := rankIn_le_length rest w
      have e1 : rankIn (u :: rest) u = rest.length + 1 := by simp [rankIn]
      have e2 : rankIn (u :: rest) w = rankIn rest w := by simp [rankIn, hwne]
      rw [e1, e2]
      omega
    · have hres := ih hcert.2 hnd'.2 u hmem w hw
      have hune : u ≠ u₀ := fun hh => hnd'.1 (hh ▸ hmem)
      have hwne : w ≠ u₀ := fun hh => hnd'.1 (hh ▸ hres.1)
      refine ⟨List.mem_cons_of_mem _ hres.1, ?_⟩
      simp only [rankIn, if_neg hune, if_neg hwne]
      exact hres.2

theorem walk_rank {E : List (String × List String)} {fin : List String}
    (hcert : FinCert E fin) (hnd : fin.Nodup) :
    ∀ (l : List String) (a b : String), a ∈ fin → stepsB E a l b = true →
      b ∈ fin ∧ (l ≠ [] → rankIn fin b < rankIn fin a) := by
  intro l
  induction l with
  | nil =>
    intro a b ha hs
    simp only [stepsB, beq_iff_eq] at hs
    exact ⟨hs ▸ ha, by intro h; exact absurd rfl h⟩
  | cons x l' ih =>
    intro a b ha hs
    simp only [stepsB, Bool.and_eq_true] at hs
    have hx := rank_lt_of_edge fin hcert hnd a ha x (by simpa using hs.1)
    have hres := ih x b hx.1 hs.2
    refine ⟨hres.1, fun _ => ?_⟩
    rcases List.eq_nil_or_concat l' with rfl | _
    · have : b = x := by
        have := hs.2
        simp only [stepsB, beq_iff_eq] at this
        exact this.symm
      rw [this]
      exact hx.2
    · have hne : l' ≠ [] := by rintro rfl; simp_all
      have := hres.2 hne
      omega

/-- A finish certificate covering `a` rules out any closed walk through `a`. -/
theorem no_cycle_of_cert {E : List (String × List String)} {fin : List String}
    (hcert : FinCert E fin) (hnd : fin.Nodup) {a : String} (ha : a ∈ fin)
    {l : List String} (hl : l ≠ []) : stepsB E a l a = false := by
  by_contra h
  have h' : stepsB E a l a = true := by
    revert h; cases stepsB E a l a <;> simp
  have := (walk_rank hcert hnd l a a ha h').2 hl
  omega

/-! ### Totality, soundness and completeness of `detect_cycle` -/

/-- The universe of identifiers a `detect_cycle` run can ever touch. -/
def dcUniverse (nodes : List String) (E : List (String × List String)) : List String :=
  ((nodes ++ (E.map Prod.snd).flatten).dedup)

theorem edgesGet_subset_universe (nodes : List String) (E : List (String × List String)) :
    ∀ v w, w ∈ edgesGet E v → w ∈ dcUniverse nodes E := by
  intro v w hw
  rw [dcUniverse, List.mem_dedup]
  refine List.mem_append_right _ ?_
  rw [List.mem_flatten]
  unfold edgesGet dget at hw
  cases hfind : E.find? (fun p => p.1 == v) with
  | none => rw [hfind] at hw; simp at hw
  | some p =>
    rw [hfind] at hw
    simp only [Option.map_some', Option.getD_some] at hw
    exact ⟨p.2, List.mem_map_of_mem _ (List.mem_of_find?_eq_some hfind), hw⟩

theorem nodes_subset_universe (nodes : List String) (E : List (String × List String)) :
    ∀ n ∈ nodes, n ∈ dcUniverse nodes E := by
  intro n hn
  rw [dcUniverse, List.mem_dedup]
  exact List.mem_append_left _ hn

/-- The instrumented run of `detect_cycle` always completes, on every input:
the fuel `dcFuel` is sufficient and the `state[node]` accesses never fail. -/
theorem detectCycleO_spec (nodes : List String) (E : List (String × List String)) :
    ∃ r, detectCycleO nodes E = some r ∧
      ((∃ c, r = some c ∧ ValidCycle E c) ∨
       (r = none ∧ ∃ fin1, FinCert E fin1 ∧ fin1.Nodup ∧ ∀ n ∈ nodes, n ∈ fin1)) := by
  have hinv0 : DfsInv E nodes (nodes.map (fun n => (n, 0))) [] [] [] := by
    refine ⟨?_, ?_, trivial, List.nodup_nil, List.nodup_nil, ?_, ?_, trivial, by simp⟩
    · intro v; rw [stGet_init]; rfl
    · intro n hn; exact dget_init_isSome hn
    · intro v hv; simp at hv
    · intro v w hvw; simp [dget] at hvw
  have hfresh : fresh (dcUniverse nodes E) (nodes.map (fun n => (n, 0))) ≤ dcFuel nodes E := by
    have h1 : fresh (dcUniverse nodes E) (nodes.map (fun n => (n, 0))) ≤
        (dcUniverse nodes E).length := by
      unfold fresh
      exact List.length_filter_le _ _
    have h2 : dcFuel nodes E = (dcUniverse nodes E).length + 1 := rfl
    omega
  have hspec := detectLoop_spec E nodes (dcUniverse nodes E)
    (edgesGet_subset_universe nodes E) (nodes_subset_universe nodes E) (dcFuel nodes E)
    nodes (nodes.map (fun n => (n, 0))) [] [] hinv0 (fun n hn => hn) hfresh
  obtain ⟨r, heq, hcase⟩ := hspec
  refine ⟨r, heq, ?_⟩
  rcases hcase with hcyc | ⟨hrn, fin1, _, hcert, hnd, hmem⟩
  · exact Or.inl hcyc
  · exact Or.inr ⟨hrn, fin1, hcert, hnd, hmem⟩

/-- Totality: `detect_cycle` always completes without exception. -/
theorem detectCycleO_total (nodes : List String) (E : List (String × List String)) :
    ∃ r, detectCycleO nodes E = some r := by
  obtain ⟨r, heq, _⟩ := detectCycleO_spec nodes E
  exact ⟨r, heq⟩

/-- Soundness: a returned cycle is a genuine closed walk of length ≥ 2. -/
theorem detectCycleO_sound {nodes : List String} {E : List (String × List String)}
    {c : List String} (h : detectCycleO nodes E = some (some c)) : ValidCycle E c := by
  obtain ⟨r, heq, hcase⟩ := detectCycleO_spec nodes E
  rw [heq] at h
  cases h
  rcases hcase with ⟨c', hc', hvc⟩ | ⟨hrn, _⟩
  · cases hc'; exact hvc
  · cases hrn
  
/-- Completeness: if `detect_cycle` reports no cycle, there is no closed walk
through any member of the node set. -/
theorem detectCycleO_complete {nodes : List String} {E : List (String × List String)}
    (h : detectCycleO nodes E = some none) :
    ∀ a ∈ nodes, ∀ l, l ≠ [] → stepsB E a l a = false := by
  obtain ⟨r, heq, hcase⟩ := detectCycleO_spec nodes E
  rw [heq] at h
  cases h
  rcases hcase with ⟨c', hc', _⟩ | ⟨_, fin1, hcert, hnd, hmem⟩
  · cases hc'
  · intro a ha l hl
    exact no_cycle_of_cert hcert hnd (hmem a ha) hl

/-! ### Claim theorems for the cycle detector -/

/-- "Edges point only to nodes in the node set", stated over the entries of the
edge mapping (decidable on concrete inputs). -/
def EdgesInto (E : List (String × List String)) (nodes : List String) : Prop :=
  ∀ p ∈ E, ∀ w ∈ p.2, w ∈ nodes

instance (E : List (String × List String)) (nodes : List String) :
    Decidable (EdgesInto E nodes) := by
  unfold EdgesInto
  infer_instance

theorem edges_into_get {E : List (String × List String)} {nodes : List String}
    (h : EdgesInto E nodes) : ∀ v w, w ∈ edgesGet E v → w ∈ nodes := by
  intro v w hw
  unfold edgesGet dget at hw
  cases hfind : E.find? (fun p => p.1 == v) with
  | none => rw [hfind] at hw; simp at hw
  | some p =>
    rw [hfind] at hw
    simp only [Option.map_some', Option.getD_some] at hw
    exact h p (List.mem_of_find?_eq_some hfind) w hw

theorem steps_of_chainOk {E : List (String × List String)} :
    ∀ (l : List String) (a b : String), chainOkB E (a :: l) = true →
      (a :: l).getLast? = some b → stepsB E a l b = true := by
  intro l
  induction l with
  | nil =>
    intro a b _ hlast
    simp only [List.getLast?_singleton, Option.some_inj] at hlast
    simp [stepsB, hlast]
  | cons x l' ih =>
    intro a b hok hlast
    simp only [chainOkB, Bool.and_eq_true] at hok
    rw [List.getLast?_cons_cons] at hlast
    simp only [stepsB, Bool.and_eq_true]
    exact ⟨hok.1, ih x b hok.2 hlast⟩

theorem HasCycle_of_valid {E : List (String × List String)} {c : List String}
    (h : ValidCycle E c) : HasCycle E := by
  obtain ⟨hlen, hhl, hok⟩ := h
  cases c with
  | nil => simp at hlen
  | cons a l =>
    have hlast : (a :: l).getLast? = some a := by
      rw [← hhl]; rfl
    have hsteps := steps_of_chainOk l a a hok hlast
    have hne : l ≠ [] := by
      intro hnil
      rw [hnil] at hlen
      simp at hlen
    exact ⟨a, l, hne, hsteps⟩

theorem steps_last_target {E : List (String × List String)} :
    ∀ (l : List String) (x b : String), l ≠ [] → stepsB E x l b = true →
      ∃ v, b ∈ edgesGet E v := by
  intro l
  induction l with
  | nil => intro x b h; exact absurd rfl h
  | cons y l' ih =>
    intro x b _ hs
    simp only [stepsB, Bool.and_eq_true] at hs
    cases l' with
    | nil =>
      have hb : y = b := by
        have := hs.2
        simp only [stepsB, beq_iff_eq] at this
        exact this
      exact ⟨x, hb ▸ (by simpa using hs.1)⟩
    | cons z l'' => exact ih y b (by simp) hs.2

theorem noCycle_of_no_edges : ¬ HasCycle ([] : List (String × List String)) := by
  rintro ⟨a, l, hne, hsteps⟩
  cases l with
  | nil => exact hne rfl
  | cons x l' =>
    simp only [stepsB, Bool.and_eq_true] at hsteps
    have : edgesGet ([] : List (String × List String)) a = [] := rfl
    rw [this] at hsteps
    simp at hsteps

/-- **C1**: for every node set `N` and edge mapping `E` pointing only into `N`
with no reachable cycle, `detect_cycle(N, E)` completes and returns `None`;
in particular it returns `None` for the empty graph and whenever `E` is empty. -/
theorem C1_acyclic_returns_none :
    (∀ (nodes : List String) (E : List (String × List String)),
      EdgesInto E nodes → ¬ HasCycle E →
      detectCycleO nodes E = some none ∧ detect_cycle nodes E = none) ∧
    detect_cycle [] [] = none ∧
    (∀ nodes : List String, detect_cycle nodes [] = none) := by
  have main : ∀ (nodes : List String) (E : List (String × List String)),
      EdgesInto E nodes → ¬ HasCycle E →
      detectCycleO nodes E = some none ∧ detect_cycle nodes E = none := by
    intro nodes E _ hnc
    obtain ⟨r, heq, hcase⟩ := detectCycleO_spec nodes E
    rcases hcase with ⟨c, hc, hvc⟩ | ⟨hrn, _⟩
    · exact absurd (HasCycle_of_valid hvc) hnc
    · subst hrn
      exact ⟨heq, by simp [detect_cycle, heq]⟩
  refine ⟨main, ?_, fun nodes => ?_⟩
  · rfl
  · exact (main nodes [] (by intro p hp; simp at hp) noCycle_of_no_edges).2

/-- **C1 witness**: the hypotheses hold and the conclusion evaluates on the
concrete two-node acyclic graph `A -> B`. -/
theorem C1_witness :
    EdgesInto [("A", ["B"])] ["A", "B"] ∧ ¬ HasCycle [("A", ["B"])] ∧
      detect_cycle ["A", "B"] [("A", ["B"])] = none := by
  have hnc : ¬ HasCycle [("A", ["B"])] := by
    rintro ⟨a, l, hne, hsteps⟩
    obtain ⟨v, hv⟩ := steps_last_target l a a hne hsteps
    -- the only edge target is "B", so the closed walk must start (and end) at "B"
    have ha : a = "B" := by
      by_cases h1 : "A" = v
      · have he : edgesGet [("A", ["B"])] v = ["B"] := by rw [← h1]; decide
        rw [he] at hv
        simpa using hv
      · have hb1 : (("A" : String) == v) = false := by simp [h1]
        have he : edgesGet [("A", ["B"])] v = [] := by
          simp [edgesGet, dget, List.find?, hb1]
        rw [he] at hv
        simp at hv
    -- but "B" has no outgoing edges, so no walk can leave it
    subst ha
    cases l with
    | nil => exact hne rfl
    | cons x l' =>
      simp only [stepsB, Bool.and_eq_true] at hsteps
      have he : edgesGet [("A", ["B"])] "B" = [] := by decide
      rw [he] at hsteps
      simp at hsteps
  exact ⟨by decide, hnc, (C1_acyclic_returns_none.1 ["A", "B"] [("A", ["B"])]
    (by decide) hnc).2⟩

/-- **C2**: for every node set `N` and edge mapping `E` pointing only into `N`
that contains a cycle, `detect_cycle(N, E)` returns a closed walk: first and
last elements equal, length at least 2, and every consecutive pair an edge. -/
theorem C2_cycle_reported_as_closed_walk (nodes : List String)
    (E : List (String × List String))
    (htgt : EdgesInto E nodes) (hcyc : HasCycle E) :
    ∃ c, detect_cycle nodes E = some c ∧ 2 ≤ c.length ∧
      c.head? = c.getLast? ∧ chainOkB E c = true := by
  obtain ⟨r, heq, hcase⟩ := detectCycleO_spec nodes E
  rcases hcase with ⟨c, hc, hvc⟩ | ⟨hrn, _, hcert, hnd, hmem⟩
  · subst hc
    exact ⟨c, by simp [detect_cycle, heq], hvc.1, hvc.2.1, hvc.2.2⟩
  · exfalso
    subst hrn
    obtain ⟨a, l, hne, hsteps⟩ := hcyc
    obtain ⟨v, hv⟩ := steps_last_target l a a hne hsteps
    have ha : a ∈ nodes := edges_into_get htgt v a hv
    have hcomplete := no_cycle_of_cert hcert hnd (hmem a ha) hne
    rw [hsteps] at hcomplete
    cases hcomplete

/-- **C2 witness**: evaluated on the two-node cycle `A <-> B`. -/
theorem C2_witness :
    EdgesInto [("A", ["B"]), ("B", ["A"])] ["A", "B"] ∧
      HasCycle [("A", ["B"]), ("B", ["A"])] ∧
      ∃ c, detect_cycle ["A", "B"] [("A", ["B"]), ("B", ["A"])] = some c ∧
        2 ≤ c.length ∧ c.head? = c.getLast? ∧
        chainOkB [("A", ["B"]), ("B", ["A"])] c = true := by
  refine ⟨by decide, ⟨"A", ["B", "A"], by decide, by decide⟩, ?_⟩
  exact C2_cycle_reported_as_closed_walk ["A", "B"] [("A", ["B"]), ("B", ["A"])]
    (by decide) ⟨"A", ["B", "A"], by decide, by decide⟩

/-- The reading of claim C10 under test: adjacency lists of identifiers outside
the node set replaced by the empty list (the claim asserts such targets are
"traversed with an empty adjacency list"). -/
def restrictToNodes (nodes : List String) (E : List (String × List String)) :
    List (String × List String) :=
  E.map (fun p => if p.1 ∈ nodes then p else (p.1, []))

/-- **C10 counterexample**: with `nodes = ["a"]` and `E = {a: [b], b: [a]}`, the
out-of-node-set target `b` is traversed with its own (non-empty) adjacency list
from `E`, not an empty one: clearing that adjacency changes the result from a
found cycle to `None`. -/
theorem C10_counterexample :
    detect_cycle ["a"] [("a", ["b"]), ("b", ["a"])] = some ["a", "b", "a"] ∧
    detect_cycle ["a"] (restrictToNodes ["a"] [("a", ["b"]), ("b", ["a"])]) = none ∧
    ¬ (detect_cycle ["a"] [("a", ["b"]), ("b", ["a"])] =
       detect_cycle ["a"] (restrictToNodes ["a"] [("a", ["b"]), ("b", ["a"])])) := by
  refine ⟨by decide, by decide, by decide⟩

/-- **C10 (amended)**: `detect_cycle` is total on every finite input, including
inputs violating the documented precondition: the instrumented run always
completes (no `KeyError`, fuel `dcFuel` suffices) and returns `None` or a
cycle list; an out-of-node-set edge target is treated as unseen and traversed
with its adjacency list from `E` (empty only when `E` has no entry for it). -/
theorem C10_total_on_all_inputs (nodes : List String) (E : List (String × List String)) :
    ∃ r : Option (List String), detectCycleO nodes E = some r ∧ detect_cycle nodes E = r := by
  obtain ⟨r, heq⟩ := detectCycleO_total nodes E
  exact ⟨r, heq, by simp [detect_cycle, heq]⟩

/-! ### The Finding / Report model (source lines 82-112) -/

/-- `Finding` (source lines 82-86). -/
structure Finding where
  severity : String
  message : String
  location : String
deriving DecidableEq

/-- `Report` (source lines 89-112). -/
structure Report where
  name : String
  findings : List Finding
deriving DecidableEq

/-- `Report.add` (source lines 94-95): append one finding. -/
def Report.add (r : Report) (severity message location : String) : Report :=
  { r with findings := r.findings ++ [⟨severity, message, location⟩] }

/-- `Report.error` (source lines 97-98). -/
def Report.error (r : Report) (message : String) (location : String := "") : Report :=
  r.add "ERROR" message location

/-- `Report.warn` (source lines 100-101). -/
def Report.warn (r : Report) (message : String) (location : String := "") : Report :=
  r.add "WARN" message location

/-- `Report.info` (source lines 103-104). -/
def Report.info (r : Report) (message : String) (location : String := "") : Report :=
  r.add "INFO" message location

/-- `Report.errors` (source lines 106-108): recomputed count of ERROR findings. -/
def Report.errors (r : Report) : Nat :=
  (r.findings.filter (fun f => f.severity == "ERROR")).length

/-- `Report.warnings` (source lines 110-112): recomputed count of WARN findings. -/
def Report.warnings (r : Report) : Nat :=
  (r.findings.filter (fun f => f.severity == "WARN")).length

/-- One append operation on a report: `error`, `warn` or `info`. -/
inductive RepOp where
  | err (message location : String)
  | warn (message location : String)
  | info (message location : String)

/-- The finding each operation appends. -/
def RepOp.toFinding : RepOp → Finding
  | .err m l => ⟨"ERROR", m, l⟩
  | .warn m l => ⟨"WARN", m, l⟩
  | .info m l => ⟨"INFO", m, l⟩

/-- Run one operation against a report. -/
def Report.applyOp (r : Report) : RepOp → Report
  | .err m l => r.error m l
  | .warn m l => r.warn m l
  | .info m l => r.info m l

/-- Run a finite sequence of `error`/`warn`/`info` appends. -/
def Report.applyAll (r : Report) (ops : List RepOp) : Report :=
  ops.foldl Report.applyOp r

def RepOp.isErr : RepOp → Bool
  | .err _ _ => true
  | _ => false

def RepOp.isWarn : RepOp → Bool
  | .warn _ _ => true
  | _ => false

theorem Report.applyAll_findings (r : Report) (ops : List RepOp) :
    (r.applyAll ops).findings = r.findings ++ ops.map RepOp.toFinding := by
  induction ops generalizing r with
  | nil => simp [Report.applyAll]
  | cons op rest ih =>
    have step : (r.applyOp op).findings = r.findings ++ [op.toFinding] := by
      cases op <;> rfl
    calc (r.applyAll (op :: rest)).findings
        = ((r.applyOp op).applyAll rest).findings := rfl
      _ = (r.applyOp op).findings ++ rest.map RepOp.toFinding := ih _
      _ = r.findings ++ (op :: rest).map RepOp.toFinding := by
          rw [step]; simp

/-- **C9**: after any finite sequence of `error`/`warn`/`info` appends,
`errors` counts exactly the ERROR findings and `warnings` exactly the WARN
findings (INFO appends change neither count); the findings sequence only grows,
preserving all prior findings in insertion order. -/
theorem C9_report_counts_and_monotonicity (r : Report) (ops : List RepOp) :
    (r.applyAll ops).findings = r.findings ++ ops.map RepOp.toFinding ∧
    (r.applyAll ops).errors =
      (((r.applyAll ops).findings).filter (fun f => f.severity == "ERROR")).length ∧
    (r.applyAll ops).warnings =
      (((r.applyAll ops).findings).filter (fun f => f.severity == "WARN")).length ∧
    (r.applyAll ops).errors = r.errors + (ops.filter RepOp.isErr).length ∧
    (r.applyAll ops).warnings = r.warnings + (ops.filter RepOp.isWarn).length := by
  refine ⟨Report.applyAll_findings r ops, rfl, rfl, ?_, ?_⟩
  · rw [Report.errors, Report.applyAll_findings r ops, List.filter_append,
      List.length_append, Report.errors]
    congr 1
    induction ops with
    | nil => rfl
    | cons op rest ih =>
      cases op with
      | err m l => simp [RepOp.toFinding, RepOp.isErr, List.filter_cons, ih]
      | warn m l => simpa [RepOp.toFinding, RepOp.isErr, List.filter_cons] using ih
      | info m l => simpa [RepOp.toFinding, RepOp.isErr, List.filter_cons] using ih
  · rw [Report.warnings, Report.applyAll_findings r ops, List.filter_append,
      List.length_append, Report.warnings]
    congr 1
    induction ops with
    | nil => rfl
    | cons op rest ih =>
      cases op with
      | err m l => simpa [RepOp.toFinding, RepOp.isWarn, List.filter_cons] using ih
      | warn m l => simp [RepOp.toFinding, RepOp.isWarn, List.filter_cons, ih]
      | info m l => simpa [RepOp.toFinding, RepOp.isWarn, List.filter_cons] using ih

/-! ### The field extractor (source lines 230-236) -/

/-- Python `\s` on the ASCII range: space, tab, newline, carriage return,
vertical tab, form feed. -/
def pyIsSpace (c : Char) : Bool :=
  c = ' ' || c = '\t' || c = '\n' || c = '\r' || c = '\x0b' || c = '\x0c'

/-- Greedy `\s*`: drop the maximal run of leading whitespace. -/
def dropSpaces : List Char → List Char
  | [] => []
  | c :: rest => if pyIsSpace c then dropSpaces rest else c :: rest

/-- Python `str.strip()`: drop whitespace from both ends. -/
def pyStrip (l : List Char) : List Char :=
  (dropSpaces (dropSpaces l).reverse).reverse

/-- Python `str.strip()` at string level. -/
def pyStripS (s : String) : String :=
  String.mk (pyStrip s.data)

/-- Match a literal pattern prefix (the `re.escape`d punctuation). -/
def stripPre : List Char → List Char → Option (List Char)
  | [], s => some s
  | _ :: _, [] => none
  | p :: ps, c :: cs => if c = p then stripPre ps cs else none

/-- Match the field label case-insensitively (`re.IGNORECASE`, ASCII case). -/
def stripLabelCI : List Char → List Char → Option (List Char)
  | [], s => some s
  | _ :: _, [] => none
  | p :: ps, c :: cs => if c.toLower = p.toLower then stripLabelCI ps cs else none

/-- One line against `^\s*\*\*{field}:\*\*\s*(.*)\s*$` (source line 231):
returns the captured group (after the greedy `\s*`), or `none` when the line
does not match. Because `(.*)` is greedy, the group runs to the end of the
line and trailing whitespace is removed later by `.strip()`. -/
def lineValue (label : String) (line : String) : Option String :=
  match stripPre ['*', '*'] (dropSpaces line.data) with
  | none => none
  | some s1 =>
    match stripLabelCI label.data s1 with
    | none => none
    | some s2 =>
      match stripPre [':', '*', '*'] s2 with
      | none => none
      | some s3 => some (String.mk (dropSpaces s3))

/-- `extract_field` (source lines 230-236): the first matching line's stripped
group, or the empty string. Total by construction: a malformed line simply
fails to match. -/
def extract_field (block : List String) (field_name : String) : String :=
  match block with
  | [] => ""
  | line :: rest =>
    match lineValue field_name line with
    | some v => pyStripS v
    | none => extract_field rest field_name

theorem chk7 : extract_field ["x", "  **priority:** P1  "] "Priority" = "P1" := by decide
theorem chk8 : extract_field ["**Depends On:**   "] "Depends On" = "" := by decide
theorem chk9 : extract_field ["**Goal:** a", "**Goal:** b"] "Goal" = "a" := by decide
theorem chk10 : extract_field ["** Goal:** a"] "Goal" = "" := by decide

theorem stripPre_iff :
    ∀ (pat s r : List Char), stripPre pat s = some r ↔ s = pat ++ r := by
  intro pat
  induction pat with
  | nil =>
    intro s r
    simp [stripPre, eq_comm]
  | cons p ps ih =>
    intro s r
    cases s with
    | nil => simp [stripPre]
    | cons c cs =>
      by_cases h : c = p
      · simp only [stripPre, if_pos h, ih]
        subst h
        simp
      · simp only [stripPre, if_neg h, List.cons_append]
        constructor
        · intro hh; cases hh
        · intro hh
          exact absurd (List.cons_eq_cons.mp hh).1 h

theorem stripLabelCI_iff :
    ∀ (pat s r : List Char), stripLabelCI pat s = some r ↔
      ∃ lab, s = lab ++ r ∧ lab.map Char.toLower = pat.map Char.toLower := by
  intro pat
  induction pat with
  | nil =>
    intro s r
    simp only [stripLabelCI, Option.some_inj, List.map_nil, List.map_eq_nil_iff]
    constructor
    · rintro rfl; exact ⟨[], rfl, rfl⟩
    · rintro ⟨lab, heq, hnil⟩; subst hnil; simpa using heq
  | cons p ps ih =>
    intro s r
    cases s with
    | nil =>
      simp only [stripLabelCI]
      constructor
      · intro hh; cases hh
      · rintro ⟨lab, heq, hmap⟩
        have : lab ≠ [] := by
          intro hl; rw [hl] at hmap; simp at hmap
        cases lab with
        | nil => exact absurd rfl this
        | cons a lab' => cases heq
    | cons c cs =>
      by_cases h : c.toLower = p.toLower
      · simp only [stripLabelCI, if_pos h, ih]
        constructor
        · rintro ⟨lab, heq, hmap⟩
          exact ⟨c :: lab, by simp [heq], by simp [hmap, h]⟩
        · rintro ⟨lab, heq, hmap⟩
          cases lab with
          | nil => simp at hmap
          | cons a lab' =>
            obtain ⟨ha, hcs⟩ := List.cons_eq_cons.mp heq
            subst ha
            refine ⟨lab', hcs, ?_⟩
            simpa using (List.cons_eq_cons.mp hmap).2
      · simp only [stripLabelCI, if_neg h]
        constructor
        · intro hh; cases hh
        · rintro ⟨lab, heq, hmap⟩
          cases lab with
          | nil => simp at hmap
          | cons a lab' =>
            obtain ⟨ha, _⟩ := List.cons_eq_cons.mp heq
            subst ha
            exact absurd (List.cons_eq_cons.mp hmap).1 h

theorem dropSpaces_append {ws : List Char} (h : ∀ c ∈ ws, pyIsSpace c = true)
    (l : List Char) : dropSpaces (ws ++ l) = dropSpaces l := by
  induction ws with
  | nil => rfl
  | cons c ws' ih =>
    have hc := h c (List.mem_cons_self _ _)
    simp only [List.cons_append, dropSpaces, if_pos hc]
    exact ih (fun d hd => h d (List.mem_cons_of_mem _ hd))

theorem dropSpaces_not_space {c : Char} (h : pyIsSpace c = false) (l : List Char) :
    dropSpaces (c :: l) = c :: l := by
  simp [dropSpaces, h]

theorem dropSpaces_decomp (l : List Char) :
    ∃ ws, l = ws ++ dropSpaces l ∧ ∀ c ∈ ws, pyIsSpace c = true := by
  induction l with
  | nil => exact ⟨[], rfl, by intro c hc; simp at hc⟩
  | cons c l' ih =>
    by_cases h : pyIsSpace c = true
    · obtain ⟨ws, heq, hws⟩ := ih
      refine ⟨c :: ws, ?_, ?_⟩
      · simp only [dropSpaces, if_pos h, List.cons_append]
        exact congrArg (c :: ·) heq
      · intro d hd
        rcases List.mem_cons.mp hd with rfl | hd2
        · exact h
        · exact hws d hd2
    · have h' : pyIsSpace c = false := by revert h; cases pyIsSpace c <;> simp
      exact ⟨[], by simp [dropSpaces, h'], by intro d hd; simp at hd⟩

theorem dropSpaces_idem (l : List Char) : dropSpaces (dropSpaces l) = dropSpaces l := by
  induction l with
  | nil => rfl
  | cons c l' ih =>
    by_cases h : pyIsSpace c = true
    · simpa [dropSpaces, h] using ih
    · have h' : pyIsSpace c = false := by revert h; cases pyIsSpace c <;> simp
      simp [dropSpaces, h']

theorem pyStrip_dropSpaces (l : List Char) : pyStrip (dropSpaces l) = pyStrip l := by
  unfold pyStrip
  rw [dropSpaces_idem]

/-- Characterisation of the regex `^\s*\*\*{field}:\*\*\s*(.*)\s*$` match. -/
theorem lineValue_iff (label line v : String) :
    lineValue label line = some v ↔
      ∃ ws lab rest, line.data = ws ++ '*' :: '*' :: (lab ++ ':' :: '*' :: '*' :: rest) ∧
        (∀ c ∈ ws, pyIsSpace c = true) ∧
        lab.map Char.toLower = label.data.map Char.toLower ∧
        v = String.mk (dropSpaces rest) := by
  constructor
  · intro h
    unfold lineValue at h
    cases h1 : stripPre ['*', '*'] (dropSpaces line.data) with
    | none => rw [h1] at h; cases h
    | some s1 =>
      simp only [h1] at h
      cases h2 : stripLabelCI label.data s1 with
      | none => simp only [h2] at h; cases h
      | some s2 =>
        simp only [h2] at h
        cases h3 : stripPre [':', '*', '*'] s2 with
        | none => simp only [h3] at h; cases h
        | some s3 =>
          simp only [h3, Option.some_inj] at h
          have e1 : dropSpaces line.data = '*' :: '*' :: s1 := (stripPre_iff _ _ _).mp h1
          obtain ⟨lab, e2, hmap⟩ := (stripLabelCI_iff _ _ _).mp h2
          have e3 : s2 = ':' :: '*' :: '*' :: s3 := (stripPre_iff _ _ _).mp h3
          obtain ⟨ws, hdecomp, hws⟩ := dropSpaces_decomp line.data
          refine ⟨ws, lab, s3, ?_, hws, hmap, ?_⟩
          · conv_lhs => rw [hdecomp]
            rw [e1, e2, e3]
          · rw [← h]
  · rintro ⟨ws, lab, rest, heq, hws, hmap, hv⟩
    have hd : dropSpaces line.data = '*' :: '*' :: (lab ++ ':' :: '*' :: '*' :: rest) := by
      rw [heq, dropSpaces_append hws, dropSpaces_not_space (by decide)]
    have h1 : stripPre ['*', '*'] ('*' :: '*' :: (lab ++ ':' :: '*' :: '*' :: rest)) =
        some (lab ++ ':' :: '*' :: '*' :: rest) := (stripPre_iff _ _ _).mpr rfl
    have h2 : stripLabelCI label.data (lab ++ ':' :: '*' :: '*' :: rest) =
        some (':' :: '*' :: '*' :: rest) :=
      (stripLabelCI_iff _ _ _).mpr ⟨lab, rfl, hmap⟩
    have h3 : stripPre [':', '*', '*'] (':' :: '*' :: '*' :: rest) = some rest :=
      (stripPre_iff _ _ _).mpr rfl
    unfold lineValue
    rw [hd]
    simp only [h1, h2, h3]
    rw [hv]

/-- **C8**: `extract_field` returns the stripped value of the first line of the
form "optional leading whitespace, `**`, label (case-insensitive), `:**`,
value"; a non-matching line is skipped (never an exception), and the empty
block yields the empty string. Only whitespace stripping is applied to the
returned value. -/
theorem C8_extract_field_contract :
    (∀ label : String, extract_field [] label = "") ∧
    (∀ (label line : String) (block : List String) (ws lab rest : List Char),
      line.data = ws ++ '*' :: '*' :: (lab ++ ':' :: '*' :: '*' :: rest) →
      (∀ c ∈ ws, pyIsSpace c = true) →
      lab.map Char.toLower = label.data.map Char.toLower →
      extract_field (line :: block) label = pyStripS (String.mk rest)) ∧
    (∀ (label line : String) (block : List String),
      (¬ ∃ ws lab rest,
        line.data = ws ++ '*' :: '*' :: (lab ++ ':' :: '*' :: '*' :: rest) ∧
        (∀ c ∈ ws, pyIsSpace c = true) ∧
        lab.map Char.toLower = label.data.map Char.toLower) →
      extract_field (line :: block) label = extract_field block label) := by
  refine ⟨fun _ => rfl, ?_, ?_⟩
  · intro label line block ws lab rest heq hws hmap
    have hlv : lineValue label line = some (String.mk (dropSpaces rest)) :=
      (lineValue_iff _ _ _).mpr ⟨ws, lab, rest, heq, hws, hmap, rfl⟩
    show (match lineValue label line with
      | some v => pyStripS v
      | none => extract_field block label) = _
    rw [hlv]
    show pyStripS (String.mk (dropSpaces rest)) = pyStripS (String.mk rest)
    unfold pyStripS
    rw [show (String.mk (dropSpaces rest)).data = dropSpaces rest from rfl,
      show (String.mk rest).data = rest from rfl, pyStrip_dropSpaces]
  · intro label line block hno
    cases hlv : lineValue label line with
    | none =>
      show (match lineValue label line with
        | some v => pyStripS v
        | none => extract_field block label) = _
      rw [hlv]
    | some v =>
      obtain ⟨ws, lab, rest, heq, hws, hmap, _⟩ := (lineValue_iff _ _ _).mp hlv
      exact absurd ⟨ws, lab, rest, heq, hws, hmap⟩ hno

/-- **C8 witness**: the second component evaluated on a concrete line. -/
theorem C8_witness :
    ("  **priority:** P1 ".data =
      "  ".data ++ '*' :: '*' :: ("priority".data ++ ':' :: '*' :: '*' :: " P1 ".data)) ∧
    extract_field ["  **priority:** P1 "] "Priority" = "P1" := by
  refine ⟨by decide, ?_⟩
  have h := C8_extract_field_contract.2.1 "Priority" "  **priority:** P1 " []
    "  ".data "priority".data " P1 ".data (by decide) (by decide) (by decide)
  rw [h]
  decide

/-! ### JSON values and the issues validator (source lines 316-502) -/

/-- JSON values as `json.loads` produces them (objects as key/value lists in
file order; numbers restricted to integers, which is all the checker compares). -/
inductive JVal where
  | jnull
  | jbool (b : Bool)
  | jint (n : Int)
  | jstr (s : String)
  | jarr (xs : List JVal)
  | jobj (fields : List (String × JVal))

mutual

/-- Python `repr()` of a JSON value, used for f-string interpolation of
values inside containers. -/
def pyRepr : JVal → String
  | .jnull => "None"
  | .jbool true => "True"
  | .jbool false => "False"
  | .jint n => toString n
  | .jstr s => "\x27" ++ s ++ "\x27"
  | .jarr xs => "[" ++ pyReprL xs ++ "]"
  | .jobj fs => "\x7b" ++ pyReprO fs ++ "\x7d"

/-- Comma-separated `repr`s of list elements. -/
def pyReprL : List JVal → String
  | [] => ""
  | [x] => pyRepr x
  | x :: y :: rest => pyRepr x ++ ", " ++ pyReprL (y :: rest)

/-- Comma-separated `repr`s of object entries. -/
def pyReprO : List (String × JVal) → String
  | [] => ""
  | [p] => "\x27" ++ p.1 ++ "\x27: " ++ pyRepr p.2
  | p :: q :: rest => "\x27" ++ p.1 ++ "\x27: " ++ pyRepr p.2 ++ ", " ++ pyReprO (q :: rest)

end

/-- Python `str()` of a JSON value. -/
def pyStr : JVal → String
  | .jstr s => s
  | v => pyRepr v

/-- Python `value == "literal"` for a possibly missing JSON value. -/
def isStrVal (v : Option JVal) (s : String) : Bool :=
  match v with
  | some (.jstr t) => t == s
  | _ => false

/-- Python `value is True` for a possibly missing JSON value. -/
def isTrueVal (v : Option JVal) : Bool :=
  match v with
  | some (.jbool b) => b
  | _ => false

/-- Python `str(x)` where `x` may be a missing dictionary entry (`None`). -/
def pyStrOpt (v : Option JVal) : String :=
  pyStr (v.getD .jnull)

/-- The external collaborators `check_issues` consumes (spec section 6): the
snapshot path used in locations, `str(project_root)`, the branch returned by
`detect_git_branch`, the `resolve_under(project_root, ·)` helper and the
filesystem existence test. -/
structure IssuesCtx where
  issuesPath : String
  projectRoot : String
  branch : String
  resolve : String → String
  pathExists : String → Bool

/-- `f"{issues_path}:{line_no}"`. -/
def fmtLoc (path : String) (lineNo : Nat) : String :=
  path ++ ":" ++ toString lineNo

/-- `STATUS_ENUMS` (source lines 74-79). -/
def STATUS_ENUMS : List (String × List String) :=
  [("dev_state", ["pending", "in_progress", "done"]),
   ("review_initial_state", ["pending", "in_progress", "done"]),
   ("review_regression_state", ["pending", "in_progress", "done"]),
   ("git_state", ["uncommitted", "committed"])]

/-- `required_meta_fields` (source line 352). -/
def required_meta_fields : List String :=
  ["plan", "goal", "tech_stack", "source", "total_issues"]

/-- `required_issue_fields` (source lines 401-421). -/
def required_issue_fields : List String :=
  ["id", "priority", "phase", "area", "title", "description", "depends_on",
   "acceptance_criteria", "test_approach", "review_initial_requirements",
   "review_regression_requirements", "dev_state", "review_initial_state",
   "review_regression_state", "git_state", "blocked", "owner", "refs", "notes"]

/-- Python `value in {string, ...}` for a possibly missing JSON value. -/
def jmem (v : Option JVal) (allowed : List String) : Bool :=
  match v with
  | some (.jstr s) => allowed.contains s
  | _ => false

/-- `fallback_context` (source lines 358-362). -/
def fallback_context (ctx : IssuesCtx) : List (String × String) :=
  [("worktree_path", ctx.projectRoot), ("branch", ctx.branch),
   ("base_branch", ctx.branch)]

/-- `not str(execution_context.get(key, "")).strip()` (source line 372). -/
def ecKeyMissing (o : List (String × JVal)) (key : String) : Bool :=
  pyStrip (pyStr ((dget o key).getD (.jstr ""))).data = []

/-- The `execution_context` inspection (source lines 364-381). Python `None`
covers both an absent key and a JSON `null` value, and both take the
"missing" branch. -/
def ecFindings (ctx : IssuesCtx) (meta : List (String × JVal)) (loc : String) :
    List Finding :=
  match dget meta "execution_context" with
  | none =>
    [⟨"INFO",
      "Meta `execution_context` missing; using fallback context (project_root/current_branch)",
      loc⟩]
  | some .jnull =>
    [⟨"INFO",
      "Meta `execution_context` missing; using fallback context (project_root/current_branch)",
      loc⟩]
  | some (.jobj o) =>
    ["worktree_path", "branch", "base_branch"].filterMap fun key =>
      if ecKeyMissing o key then
        some ⟨"INFO",
          "Meta execution_context missing `" ++ key ++ "`; fallback available (" ++
            ((dget (fallback_context ctx) key).getD "") ++ ")", loc⟩
      else none
  | some _ =>
    [⟨"INFO", "Meta `execution_context` is not an object; fallback context will be used",
      loc⟩]

/-- The `source` inspection (source lines 383-387). -/
def sourceFindings (ctx : IssuesCtx) (meta : List (String × JVal)) (loc : String) :
    List Finding :=
  match dget meta "source" with
  | some (.jstr s) =>
    if pyStrip s.data ≠ [] ∧ ctx.pathExists (ctx.resolve s) = false then
      [⟨"INFO", "Meta source path not found (non-blocking)", loc⟩]
    else []
  | _ => []

/-- The meta-record checks (source lines 348-387). -/
def metaChecks (ctx : IssuesCtx) (meta : List (String × JVal)) (lineNo : Nat) :
    List Finding :=
  let loc := fmtLoc ctx.issuesPath lineNo
  (if isStrVal (dget meta "type") "meta" then []
   else [⟨"ERROR", "First line must be `type=meta`", loc⟩]) ++
  (required_meta_fields.filterMap fun f =>
    if (dget meta f).isNone then
      some ⟨"ERROR", "Meta missing field `" ++ f ++ "`", loc⟩
    else none) ++
  ecFindings ctx meta loc ++
  sourceFindings ctx meta loc

/-- The `total_issues` consistency check (source lines 394-399); Python
`isinstance(x, int)` also admits booleans (`True == 1`, `False == 0`). -/
def totalIssuesFindings (ctx : IssuesCtx) (meta : List (String × JVal)) (lineNo : Nat)
    (actual : Nat) : List Finding :=
  let loc := fmtLoc ctx.issuesPath lineNo
  match dget meta "total_issues" with
  | some (.jint n) =>
    if n ≠ (actual : Int) then
      [⟨"ERROR", "Meta total_issues=" ++ toString n ++ " does not match actual=" ++
        toString actual, loc⟩]
    else []
  | some (.jbool b) =>
    if (if b then (1 : Int) else 0) ≠ (actual : Int) then
      [⟨"ERROR", "Meta total_issues=" ++ (if b then "True" else "False") ++
        " does not match actual=" ++ toString actual, loc⟩]
    else []
  | _ => []

/-- `^(.+):(\d+)(?:-(\d+))?$` tail: one maximal digit run, optionally `-` and a
second digit run, to the end. -/
def refTail (t : List Char) : Bool :=
  match t.span Char.isDigit with
  | ([], _) => false
  | (_ :: _, rest) =>
    match rest with
    | [] => true
    | '-' :: r2 => (r2 ≠ [] : Bool) && r2.all Char.isDigit
    | _ => false

/-- `REF_RE.match`: the greedy `(.+)` picks the last `:` whose tail matches;
returns the path group. -/
def refSplit (pre rest : List Char) : Option (List Char) :=
  match rest with
  | [] => none
  | c :: r =>
    match refSplit (pre ++ [c]) r with
    | some p => some p
    | none => if c = ':' ∧ pre ≠ [] ∧ refTail r = true then some pre else none

/-- `REF_RE.match(ref)` with `match.group(1)` (source lines 30, 462-466). -/
def refMatch (s : String) : Option String :=
  (refSplit [] s.data).map String.mk

theorem chk11 : refMatch "src/main.py:1-10" = some "src/main.py" := by decide
theorem chk12 : refMatch "a:1:2" = some "a:1" := by decide
theorem chk13 : refMatch "not-a-valid-ref" = none := by decide
theorem chk14 : refMatch "a:1-2-3" = none := by decide
theorem chk15 : refMatch ":12" = none := by decide

/-- Per-ref checks (source lines 458-469). -/
def refFindings (ctx : IssuesCtx) (loc : String) (ref : JVal) : List Finding :=
  match ref with
  | .jstr s =>
    match refMatch s with
    | none => [⟨"ERROR", "Invalid ref format `" ++ s ++ "`", loc⟩]
    | some pathPart =>
      if ctx.pathExists (ctx.resolve pathPart) = false then
        [⟨"INFO", "Referenced path not found (non-blocking): " ++ pathPart, loc⟩]
      else []
  | _ => [⟨"ERROR", "Each ref must be string", loc⟩]

/-- The per-issue value checks of source lines 439-469: priority, status enums,
`blocked`, `depends_on` type and `refs`. -/
def issueChecksFront (ctx : IssuesCtx) (loc : String) (issue : List (String × JVal)) :
    List Finding :=
  (if jmem (dget issue "priority") ["P0", "P1", "P2"] then []
   else [⟨"ERROR", "Invalid priority `" ++ pyStrOpt (dget issue "priority") ++ "`", loc⟩]) ++
  (STATUS_ENUMS.filterMap fun p =>
    if jmem (dget issue p.1) p.2 then none
    else some ⟨"ERROR", "Invalid " ++ p.1 ++ " `" ++ pyStrOpt (dget issue p.1) ++ "`", loc⟩) ++
  (match dget issue "blocked" with
   | some (.jbool _) => []
   | _ => [⟨"ERROR", "`blocked` must be boolean", loc⟩]) ++
  (match dget issue "depends_on" with
   | some (.jarr _) => []
   | _ => [⟨"ERROR", "`depends_on` must be an array", loc⟩]) ++
  (match dget issue "refs" with
   | some (.jarr []) => [⟨"ERROR", "`refs` must be a non-empty array", loc⟩]
   | some (.jarr rs) => rs.flatMap (refFindings ctx loc)
   | _ => [⟨"ERROR", "`refs` must be a non-empty array", loc⟩])

/-- The committed-state consistency checks (source lines 471-476). -/
def issueCommittedChecks (loc : String) (issue : List (String × JVal)) :
    List Finding :=
  if isStrVal (dget issue "git_state") "committed" then
    (["dev_state", "review_initial_state", "review_regression_state"].filterMap fun sn =>
      if isStrVal (dget issue sn) "done" then none
      else some ⟨"ERROR", "Committed issue must have `" ++ sn ++ "=done`", loc⟩) ++
    (if isTrueVal (dget issue "blocked") then
      [⟨"ERROR", "Committed issue cannot be blocked", loc⟩]
     else [])
  else []

/-- The per-issue value checks run after the `id` guard (source lines 439-476). -/
def issueBodyFindings (ctx : IssuesCtx) (loc : String) (issue : List (String × JVal)) :
    List Finding :=
  issueChecksFront ctx loc issue ++ issueCommittedChecks loc issue

/-- `issue.get("id")` passed through the validity guard of source lines 431-434. -/
def validIdOf (issue : List (String × JVal)) : Option String :=
  match dget issue "id" with
  | some (.jstr s) => if pyStrip s.data = [] then none else some s
  | _ => none

/-- Dictionary assignment `issue_map[issue_id] = (line_no, issue)`: an existing
key keeps its position (Python dict update), a new key is appended. -/
def dsetKeep {α : Type} (m : List (String × α)) (k : String) (v : α) :
    List (String × α) :=
  if (dget m k).isSome then m.map (fun p => if p.1 = k then (k, v) else p)
  else m ++ [(k, v)]

/-- One iteration of the per-issue loop (source lines 424-476): the findings it
appends and the updated `issue_map`. -/
def issueRowStep (ctx : IssuesCtx)
    (imap : List (String × (Nat × List (String × JVal)))) (lineNo : Nat)
    (issue : List (String × JVal)) :
    List Finding × List (String × (Nat × List (String × JVal))) :=
  let loc := fmtLoc ctx.issuesPath lineNo
  let missingF := required_issue_fields.filterMap fun f =>
    if (dget issue f).isNone then
      some ⟨"ERROR", "Issue missing field `" ++ f ++ "`", loc⟩
    else none
  match validIdOf issue with
  | none => (missingF ++ [⟨"ERROR", "Issue `id` must be a non-empty string", loc⟩], imap)
  | some issueId =>
    let dupF := if (dget imap issueId).isSome then
        [⟨"ERROR", "Duplicate issue id `" ++ issueId ++ "`", loc⟩]
      else []
    (missingF ++ dupF ++ issueBodyFindings ctx loc issue,
      dsetKeep imap issueId (lineNo, issue))

/-- The whole per-issue loop (source lines 424-476). -/
def processIssueRows (ctx : IssuesCtx) :
    List (Nat × List (String × JVal)) →
    List (String × (Nat × List (String × JVal))) →
    List Finding × List (String × (Nat × List (String × JVal)))
  | [], imap => ([], imap)
  | (ln, issue) :: rest, imap =>
    let s := issueRowStep ctx imap ln issue
    let r := processIssueRows ctx rest s.2
    (s.1 ++ r.1, r.2)

/-- `edges[issue_id].append(dep_id)` (source line 496). -/
def edgesAppend (E : List (String × List String)) (k d : String) :
    List (String × List String) :=
  E.map (fun p => if p.1 = k then (p.1, p.2 ++ [d]) else p)

/-- The per-dependency checks of one issue (source lines 486-496), folding over
the `depends_on` entries. -/
def depStep (ctx : IssuesCtx) (imap : List (String × (Nat × List (String × JVal))))
    (issueId : String) (loc : String) :
    List JVal → List (String × List String) → List Finding × List (String × List String)
  | [], edges => ([], edges)
  | dep :: rest, edges =>
    match dep with
    | .jstr s =>
      if pyStrip s.data = [] then
        let r := depStep ctx imap issueId loc rest edges
        (⟨"ERROR", "depends_on entries must be non-empty strings", loc⟩ :: r.1, r.2)
      else if s = issueId then
        let r := depStep ctx imap issueId loc rest edges
        (⟨"ERROR", "Issue cannot depend on itself", loc⟩ :: r.1, r.2)
      else if (dget imap s).isSome = false then
        let r := depStep ctx imap issueId loc rest edges
        (⟨"ERROR", "Issue depends on unknown id `" ++ s ++ "`", loc⟩ :: r.1, r.2)
      else
        depStep ctx imap issueId loc rest (edgesAppend edges issueId s)
    | _ =>
      let r := depStep ctx imap issueId loc rest edges
      (⟨"ERROR", "depends_on entries must be non-empty strings", loc⟩ :: r.1, r.2)

/-- The dependency-graph construction loop (source lines 481-496). -/
def graphLoop (ctx : IssuesCtx) (imap : List (String × (Nat × List (String × JVal)))) :
    List (String × (Nat × List (String × JVal))) → List (String × List String) →
    List Finding × List (String × List String)
  | [], edges => ([], edges)
  | (issueId, (lineNo, issue)) :: rest, edges =>
    let loc := fmtLoc ctx.issuesPath lineNo
    match (dget issue "depends_on").getD (.jarr []) with
    | .jarr deps =>
      let s := depStep ctx imap issueId loc deps edges
      let r := graphLoop ctx imap rest s.2
      (s.1 ++ r.1, r.2)
    | _ => graphLoop ctx imap rest edges

/-- The cross-record dependency phase (source lines 478-500): per-dependency
errors, the assembled edges, and the final cycle check. -/
def graphPhase (ctx : IssuesCtx) (imap : List (String × (Nat × List (String × JVal)))) :
    List Finding :=
  let issueIds := imap.map Prod.fst
  let r := graphLoop ctx imap imap (issueIds.map (fun i => (i, [])))
  r.1 ++
  (match detect_cycle issueIds r.2 with
   | some cycle =>
     [⟨"ERROR", "Issue dependency cycle detected: " ++ String.intercalate " -> " cycle,
       ctx.issuesPath⟩]
   | none => [])

/-- `check_issues` (source lines 328-502) from the parsed rows onward. Reading
the file, dropping blank lines and per-line JSON parsing (lines 330-346) are
the excluded text-read collaborator plus `parse_json_line`; `rows` holds the
successfully parsed object rows with their line numbers, in file order. -/
def check_issues (ctx : IssuesCtx) (rows : List (Nat × List (String × JVal))) : Report :=
  match rows with
  | [] => ⟨"issues", []⟩
  | (metaNo, meta) :: issueRows =>
    let metaF := metaChecks ctx meta metaNo
    match issueRows with
    | [] => ⟨"issues", metaF ++ [⟨"ERROR", "No issue rows after meta", ctx.issuesPath⟩]⟩
    | _ :: _ =>
      let totalF := totalIssuesFindings ctx meta metaNo issueRows.length
      let pr := processIssueRows ctx issueRows []
      ⟨"issues", metaF ++ totalF ++ pr.1 ++ graphPhase ctx pr.2⟩

/-- Oracles for concrete evaluations: identity resolution, every path exists. -/
def exCtx : IssuesCtx :=
  ⟨"issues.jsonl", "/root", "main", fun s => s, fun _ => true⟩

/-- A fully valid meta row, used by concrete evaluations. -/
def exMeta : List (String × JVal) :=
  [("type", .jstr "meta"), ("plan", .jstr "docs/plans/plan.md"), ("goal", .jstr "g"),
   ("tech_stack", .jstr "python"), ("source", .jstr "docs/plans/plan.md"),
   ("total_issues", .jint 1),
   ("execution_context", .jobj
     [("worktree_path", .jstr "/root"), ("branch", .jstr "main"),
      ("base_branch", .jstr "main")])]

/-- A fully valid issue row with the given id, dependency list and states. -/
def exIssue (id : String) (deps : List JVal) (dev rinit rreg git : String)
    (blocked : Bool) : List (String × JVal) :=
  [("id", .jstr id), ("priority", .jstr "P0"), ("phase", .jint 1),
   ("area", .jstr "backend"), ("title", .jstr "t"), ("description", .jstr "d"),
   ("depends_on", .jarr deps), ("acceptance_criteria", .jstr "c"),
   ("test_approach", .jstr "pytest"), ("review_initial_requirements", .jstr "r"),
   ("review_regression_requirements", .jstr "r"), ("dev_state", .jstr dev),
   ("review_initial_state", .jstr rinit), ("review_regression_state", .jstr rreg),
   ("git_state", .jstr git), ("blocked", .jbool blocked), ("owner", .jstr ""),
   ("refs", .jarr [.jstr "src/main.py:1-10"]), ("notes", .jstr "")]

theorem chk16 :
    Report.findings (check_issues exCtx
      [(1, exMeta), (2, exIssue "A" [] "pending" "pending" "pending" "uncommitted" false)]) =
    [] := by decide

theorem chk17 :
    Report.findings (check_issues exCtx
      [(1, exMeta),
       (2, exIssue "A" [] "pending" "done" "done" "committed" false)]) =
    [⟨"ERROR", "Committed issue must have `dev_state=done`", "issues.jsonl:2"⟩] := by
  decide

/-! ### String comparison tools for message analysis -/

/-- The two character lists disagree at some common position. -/
def disagree : List Char → List Char → Bool
  | a :: as, b :: bs => if a = b then disagree as bs else true
  | _, _ => false

theorem append_ne_of_disagree :
    ∀ (a b : List Char), disagree a b = true → ∀ r₁ r₂, a ++ r₁ ≠ b ++ r₂ := by
  intro a
  induction a with
  | nil => intro b h; cases b <;> simp [disagree] at h
  | cons x as ih =>
    intro b h r₁ r₂ heq
    cases b with
    | nil => simp [disagree] at h
    | cons y bs =>
      by_cases hxy : x = y
      · rw [disagree, if_pos hxy] at h
        exact ih bs h r₁ r₂ (by simpa [hxy] using heq)
      · exact hxy (List.cons_eq_cons.mp heq).1

theorem str_app_ne {x u : String} (hd : disagree x.data u.data = true) (y v : String) :
    x ++ y ≠ u ++ v := by
  intro h
  have h2 := congrArg String.data h
  rw [String.data_append, String.data_append] at h2
  exact append_ne_of_disagree _ _ hd _ _ h2

theorem str_lit_ne_app {x u : String} (hd : disagree x.data u.data = true) (v : String) :
    x ≠ u ++ v := by
  intro h
  have := str_app_ne hd "" v
  rw [String.append_empty] at this
  exact this h

theorem str_app_ne_lit {x u : String} (hd : disagree x.data u.data = true) (y : String) :
    x ++ y ≠ u := by
  intro h
  have := str_app_ne hd y ""
  rw [String.append_empty] at this
  exact this h

/-- `sub` is a prefix of `l` (plain character comparison). -/
def listPrefix : List Char → List Char → Bool
  | [], _ => true
  | _ :: _, [] => false
  | a :: as, b :: bs => a == b && listPrefix as bs

/-- Naive substring search. -/
def containsSub : List Char → List Char → Bool
  | [], sub => listPrefix sub []
  | l@(_ :: t), sub => listPrefix sub l || containsSub t sub

/-- Case-insensitive "mentions": the lowered needle occurs in the lowered text. -/
def lcContains (s sub : String) : Bool :=
  containsSub (s.data.map Char.toLower) (sub.data.map Char.toLower)

theorem chk18 : lcContains "Committed issue must have `dev_state=done`" "committed" = true := by decide
theorem chk19 : lcContains "Committed issue must have `dev_state=done`" "done" = true := by decide

/-- Meta row with an unrecognized `schema_version`. -/
def exMetaSV999 : List (String × JVal) :=
  ("schema_version", .jint 999) :: exMeta

/-- **C5**: `check_issues` never inspects `schema_version`. On a snapshot whose
meta lacks `schema_version` no finding (in particular no WARN) mentions it, and
on a snapshot with an unrecognized `schema_version` no ERROR is emitted at all
— contradicting the claim (and the repository's own tests
`test_schema_version_missing_is_warn` / `test_schema_version_unknown_is_error`). -/
theorem C5_schema_version_never_checked :
    (Report.findings (check_issues exCtx
        [(1, exMeta),
         (2, exIssue "A" [] "pending" "pending" "pending" "uncommitted" false)])).all
      (fun f => !(lcContains f.message "schema_version")) = true ∧
    Report.warnings (check_issues exCtx
      [(1, exMeta),
       (2, exIssue "A" [] "pending" "pending" "pending" "uncommitted" false)]) = 0 ∧
    (Report.findings (check_issues exCtx
        [(1, exMetaSV999),
         (2, exIssue "A" [] "pending" "pending" "pending" "uncommitted" false)])).all
      (fun f => !(lcContains f.message "schema_version")) = true ∧
    Report.errors (check_issues exCtx
      [(1, exMetaSV999),
       (2, exIssue "A" [] "pending" "pending" "pending" "uncommitted" false)]) = 0 := by
  refine ⟨by decide, by decide, by decide, by decide⟩

/-! ### Tools for reasoning about finding messages -/

theorem String.ofData {s t : String} (h : s.data = t.data) : s = t := by
  cases s; cases t
  exact congrArg String.mk h

theorem str_ne_of_head {x y : String} (h : x.data.head? ≠ y.data.head?) : x ≠ y :=
  fun he => h (by rw [he])

theorem head_of_app {p : String} {c : Char} (h : p.data.head? = some c) (s : String) :
    (p ++ s).data.head? = some c := by
  rw [String.data_append]
  cases hp : p.data with
  | nil => rw [hp] at h; cases h
  | cons a t =>
    rw [hp] at h
    simpa using h

theorem str_mid_inj {a c x y : String} (h : a ++ x ++ c = a ++ y ++ c) : x = y := by
  have h2 := congrArg String.data h
  simp only [String.data_append] at h2
  rw [List.append_assoc, List.append_assoc] at h2
  have h3 := List.append_cancel_left h2
  exact String.ofData (List.append_cancel_right h3)

/-- Counting one message among the outputs of a `filterMap` whose messages are
injectively derived from a duplicate-free name list. -/
theorem countP_filterMap_msg {names : List String} (hnd : names.Nodup)
    (g : String → Option Finding) (msgOf : String → String)
    (hg : ∀ sn f, g sn = some f → f.message = msgOf sn)
    (hinj : ∀ a b, msgOf a = msgOf b → a = b)
    {sn : String} (hsn : sn ∈ names) :
    (names.filterMap g).countP (fun f => f.message == msgOf sn) =
      if (g sn).isSome then 1 else 0 := by
  induction names with
  | nil => simp at hsn
  | cons a rest ih =>
    have hnd' := List.nodup_cons.mp hnd
    rcases List.mem_cons.mp hsn with rfl | hmem
    · have hrest : (rest.filterMap g).countP (fun f => f.message == msgOf sn) = 0 := by
        refine List.countP_eq_zero.mpr ?_
        intro f hf
        obtain ⟨b, hb, hgb⟩ := List.mem_filterMap.mp hf
        have hfb := hg b f hgb
        simp only [beq_iff_eq, hfb]
        intro hbs
        exact hnd'.1 (hinj b sn hbs ▸ hb)
      cases hga : g sn with
      | none => simp [List.filterMap_cons, hga, hrest]
      | some f =>
        have hf := hg sn f hga
        simp [List.filterMap_cons, hga, List.countP_cons, hrest, hf]
    · have hane : a ≠ sn := fun he => hnd'.1 (he ▸ hmem)
      cases hga : g a with
      | none => simpa [List.filterMap_cons, hga] using ih hnd'.2 hmem
      | some f =>
        have hf := hg a f hga
        have : (f.message == msgOf sn) = false := by
          simp only [beq_eq_false_iff_ne, hf]
          intro he
          exact hane (hinj a sn he)
        simp [List.filterMap_cons, hga, List.countP_cons, this, ih hnd'.2 hmem]

/-! ### Dictionary lemmas for `dsetKeep` -/

theorem dget_append {α : Type} (m₁ m₂ : List (String × α)) (k : String) :
    dget (m₁ ++ m₂) k = (dget m₁ k).or (dget m₂ k) := by
  unfold dget
  rw [List.find?_append]
  cases List.find? (fun p => p.1 == k) m₁ <;> simp

theorem dget_map_replace_self {α : Type} (k : String) (v : α) :
    ∀ m : List (String × α),
      dget (m.map (fun p => if p.1 = k then (k, v) else p)) k =
        (dget m k).map (fun _ => v) := by
  intro m
  induction m with
  | nil => rfl
  | cons p rest ih =>
    by_cases hp : p.1 = k
    · simp [dget, List.find?, hp]
    · have hb : (p.1 == k) = false := by simp [hp]
      simp only [List.map_cons, if_neg hp]
      simpa only [dget, List.find?, hb] using ih

theorem dget_map_replace_ne {α : Type} {k x : String} (h : x ≠ k) (v : α) :
    ∀ m : List (String × α),
      dget (m.map (fun p => if p.1 = k then (k, v) else p)) x = dget m x := by
  intro m
  induction m with
  | nil => rfl
  | cons p rest ih =>
    by_cases hp : p.1 = k
    · have hb : (k == x) = false := by simp [Ne.symm h]
      have hb2 : (p.1 == x) = false := by simp [hp, Ne.symm h]
      simp only [List.map_cons, if_pos hp]
      simpa only [dget, List.find?, hb, hb2] using ih
    · by_cases hx : p.1 = x
      · have hb : (p.1 == x) = true := by simp [hx]
        simp only [List.map_cons, if_neg hp]
        simp [dget, List.find?, hb]
      · have hb : (p.1 == x) = false := by simp [hx]
        simp only [List.map_cons, if_neg hp]
        simpa only [dget, List.find?, hb] using ih

theorem dget_dsetKeep_self {α : Type} (m : List (String × α)) (k : String) (v : α) :
    dget (dsetKeep m k v) k = some v := by
  unfold dsetKeep
  by_cases h : (dget m k).isSome = true
  · rw [if_pos h, dget_map_replace_self]
    obtain ⟨w, hw⟩ := Option.isSome_iff_exists.mp h
    rw [hw]; rfl
  · rw [if_neg h, dget_append]
    have : dget m k = none := by
      revert h; cases dget m k <;> simp
    rw [this]
    simp [dget, List.find?]

theorem dget_dsetKeep_ne {α : Type} (m : List (String × α)) {k x : String} (h : x ≠ k)
    (v : α) : dget (dsetKeep m k v) x = dget m x := by
  unfold dsetKeep
  by_cases hs : (dget m k).isSome = true
  · rw [if_pos hs, dget_map_replace_ne h]
  · rw [if_neg hs, dget_append]
    have hb : (k == x) = false := by simp [Ne.symm h]
    cases hd : dget m x with
    | some w => simp
    | none => simp [dget, List.find?, hb]

theorem ne_of_heads₀ {m p : String} {c d : Char} (hm : m.data.head? = some c)
    (hp : p.data.head? = some d) (hcd : c ≠ d) : m ≠ p := by
  apply str_ne_of_head
  rw [hm, hp]
  simp [hcd]

theorem ne_of_heads₁ {m p : String} {c d : Char} (hm : m.data.head? = some c)
    (hp : p.data.head? = some d) (hcd : c ≠ d) (y : String) : m ≠ p ++ y :=
  ne_of_heads₀ hm (head_of_app hp y) hcd

theorem ne_of_heads₂ {m p : String} {c d : Char} (hm : m.data.head? = some c)
    (hp : p.data.head? = some d) (hcd : c ≠ d) (y z : String) : m ≠ p ++ y ++ z :=
  ne_of_heads₀ hm (head_of_app (head_of_app hp y) z) hcd

theorem str_lit_ne_app₂ {x p : String} (hd : disagree x.data p.data = true)
    (y z : String) : x ≠ p ++ y ++ z := by
  rw [String.append_assoc]
  exact str_lit_ne_app hd _

theorem str_app₂_ne_lit {p u : String} (hd : disagree p.data u.data = true)
    (y z : String) : p ++ y ++ z ≠ u := by
  rw [String.append_assoc]
  exact str_app_ne_lit hd _

/-- Head character of each finding message of the front per-issue checks. -/
theorem issueChecksFront_heads (ctx : IssuesCtx) (loc : String)
    (issue : List (String × JVal)) :
    ∀ f ∈ issueChecksFront ctx loc issue,
      f.message.data.head? = some 'I' ∨ f.message.data.head? = some '`' ∨
      f.message.data.head? = some 'E' ∨ f.message.data.head? = some 'R' := by
  have hbk : ("`blocked` must be boolean" : String).data.head? = some '`' := by decide
  have hdp : ("`depends_on` must be an array" : String).data.head? = some '`' := by decide
  have hrf : ("`refs` must be a non-empty array" : String).data.head? = some '`' := by decide
  have hes : ("Each ref must be string" : String).data.head? = some 'E' := by decide
  intro f hf
  simp only [issueChecksFront, List.mem_append] at hf
  rcases hf with (((h1 | h2) | h3) | h4) | h5
  · split at h1
    · simp at h1
    · rw [List.mem_singleton] at h1
      subst h1
      exact Or.inl (head_of_app (head_of_app (by decide) _) _)
  · obtain ⟨p, _, hgp⟩ := List.mem_filterMap.mp h2
    split at hgp
    · cases hgp
    · cases hgp
      exact Or.inl (head_of_app (head_of_app (head_of_app (head_of_app (by decide) _) _) _) _)
  · split at h3
    · simp at h3
    · rw [List.mem_singleton] at h3
      subst h3
      exact Or.inr (Or.inl hbk)
  · split at h4
    · simp at h4
    · rw [List.mem_singleton] at h4
      subst h4
      exact Or.inr (Or.inl hdp)
  · split at h5
    · rw [List.mem_singleton] at h5
      subst h5
      exact Or.inr (Or.inl hrf)
    · obtain ⟨r, _, hr⟩ := List.mem_flatMap.mp h5
      unfold refFindings at hr
      split at hr
      · split at hr
        · rw [List.mem_singleton] at hr
          subst hr
          exact Or.inl (head_of_app (head_of_app (by decide) _) _)
        · split at hr
          · rw [List.mem_singleton] at hr
            subst hr
            exact Or.inr (Or.inr (Or.inr (head_of_app (by decide) _)))
          · simp at hr
      · rw [List.mem_singleton] at hr
        subst hr
        exact Or.inr (Or.inr (Or.inl hes))
    · rw [List.mem_singleton] at h5
      subst h5
      exact Or.inr (Or.inl hrf)

/-- Every committed-check finding is an ERROR whose message starts with `C`. -/
theorem issueCommittedChecks_heads (loc : String) (issue : List (String × JVal)) :
    ∀ f ∈ issueCommittedChecks loc issue,
      f.severity = "ERROR" ∧ f.message.data.head? = some 'C' := by
  have hcb : ("Committed issue cannot be blocked" : String).data.head? = some 'C' := by
    decide
  intro f hf
  unfold issueCommittedChecks at hf
  split at hf
  · rw [List.mem_append] at hf
    rcases hf with h1 | h2
    · obtain ⟨sn, _, hg⟩ := List.mem_filterMap.mp h1
      split at hg
      · cases hg
      · cases hg
        exact ⟨rfl, head_of_app (head_of_app (by decide) _) _⟩
    · split at h2
      · rw [List.mem_singleton] at h2
        subst h2
        exact ⟨rfl, hcb⟩
      · simp at h2
  · simp at hf

/-- The committed message of one state field. -/
def cmtMsg (sn : String) : String :=
  "Committed issue must have `" ++ sn ++ "=done`"

theorem cmtMsg_inj : ∀ a b : String, cmtMsg a = cmtMsg b → a = b := by
  intro a b h
  exact str_mid_inj h

/-- Exact count of one committed-state ERROR in the committed segment. -/
theorem issueCommittedChecks_count (loc : String) (issue : List (String × JVal))
    (sn : String) (hsn : sn ∈ ["dev_state", "review_initial_state", "review_regression_state"]) :
    (issueCommittedChecks loc issue).countP (fun f => f.message == cmtMsg sn) =
      if isStrVal (dget issue "git_state") "committed" = true ∧
          isStrVal (dget issue sn) "done" = false then 1 else 0 := by
  unfold issueCommittedChecks
  by_cases hgit : isStrVal (dget issue "git_state") "committed" = true
  · rw [if_pos hgit, List.countP_append]
    have hblocked : (if isTrueVal (dget issue "blocked") = true then
        [(⟨"ERROR", "Committed issue cannot be blocked", loc⟩ : Finding)]
        else []).countP (fun f => f.message == cmtMsg sn) = 0 := by
      split
      · refine List.countP_eq_zero.mpr ?_
        intro f hf
        rw [List.mem_singleton] at hf
        subst hf
        simp only [beq_iff_eq]
        show ¬ ("Committed issue cannot be blocked" : String) = cmtMsg sn
        unfold cmtMsg
        exact str_lit_ne_app₂ (by decide) _ _
      · simp
    have hmain := @countP_filterMap_msg
      ["dev_state", "review_initial_state", "review_regression_state"] (by decide)
      (fun sn' => if isStrVal (dget issue sn') "done" = true then none
        else some ⟨"ERROR", cmtMsg sn', loc⟩) cmtMsg
      (by
        intro sn' f hg
        dsimp only at hg
        split at hg
        · cases hg
        · cases hg; rfl)
      cmtMsg_inj sn hsn
    have hconv : (["dev_state", "review_initial_state",
        "review_regression_state"].filterMap fun sn' =>
          if isStrVal (dget issue sn') "done" = true then none
          else some (⟨"ERROR", cmtMsg sn', loc⟩ : Finding)) =
        (["dev_state", "review_initial_state",
          "review_regression_state"].filterMap fun sn' =>
          if isStrVal (dget issue sn') "done" = true then none
          else some (⟨"ERROR", "Committed issue must have `" ++ sn' ++ "=done`", loc⟩ :
            Finding)) := rfl
    rw [← hconv, hmain, hblocked]
    by_cases hdone : isStrVal (dget issue sn) "done" = true
    · simp [hdone, hgit]
    · have hd2 : isStrVal (dget issue sn) "done" = false := by
        revert hdone; cases isStrVal (dget issue sn) "done" <;> simp
      simp [hd2, hgit]
  · have hgit' : isStrVal (dget issue "git_state") "committed" = false := by
      revert hgit; cases isStrVal (dget issue "git_state") "committed" <;> simp
    rw [if_neg (by simp [hgit'])]
    simp [hgit']

/-- Exact count of the committed-blocked ERROR in the committed segment. -/
theorem issueCommittedChecks_blocked_count (loc : String) (issue : List (String × JVal)) :
    (issueCommittedChecks loc issue).countP
        (fun f => f.message == "Committed issue cannot be blocked") =
      if isStrVal (dget issue "git_state") "committed" = true ∧
          isTrueVal (dget issue "blocked") = true then 1 else 0 := by
  unfold issueCommittedChecks
  by_cases hgit : isStrVal (dget issue "git_state") "committed" = true
  · rw [if_pos hgit, List.countP_append]
    have hmain : (["dev_state", "review_initial_state",
        "review_regression_state"].filterMap fun sn' =>
          if isStrVal (dget issue sn') "done" = true then none
          else some (⟨"ERROR", "Committed issue must have `" ++ sn' ++ "=done`", loc⟩ :
            Finding)).countP (fun f => f.message == "Committed issue cannot be blocked") = 0 := by
      refine List.countP_eq_zero.mpr ?_
      intro f hf
      obtain ⟨sn', _, hg⟩ := List.mem_filterMap.mp hf
      split at hg
      · cases hg
      · cases hg
        simp only [beq_iff_eq]
        exact str_app₂_ne_lit (by decide) _ _
    rw [hmain]
    by_cases hb : isTrueVal (dget issue "blocked") = true
    · simp [hb, hgit, List.countP_cons]
    · have hb' : isTrueVal (dget issue "blocked") = false := by
        revert hb; cases isTrueVal (dget issue "blocked") <;> simp
      simp [hb', hgit]
  · have hgit' : isStrVal (dget issue "git_state") "committed" = false := by
      revert hgit; cases isStrVal (dget issue "git_state") "committed" <;> simp
    rw [if_neg (by simp [hgit'])]
    simp [hgit']

/-- The duplicate-id message. -/
def dupMsg (i : String) : String :=
  "Duplicate issue id `" ++ i ++ "`"

theorem dupMsg_inj : ∀ a b : String, dupMsg a = dupMsg b → a = b := by
  intro a b h
  exact str_mid_inj h

theorem countP_msg_zero {l : List Finding} {M : String} {c : Char}
    (hM : M.data.head? = some c)
    (h : ∀ f ∈ l, f.message.data.head? ≠ some c) :
    l.countP (fun f => f.message == M) = 0 := by
  refine List.countP_eq_zero.mpr ?_
  intro f hf
  simp only [beq_iff_eq]
  intro he
  exact h f hf (by rw [he, hM])

/-- The missing-required-field segment of one issue row. -/
def missingFieldFindings (loc : String) (issue : List (String × JVal)) : List Finding :=
  required_issue_fields.filterMap fun fd =>
    if (dget issue fd).isNone then
      some ⟨"ERROR", "Issue missing field `" ++ fd ++ "`", loc⟩
    else none

theorem missingFieldFindings_heads (loc : String) (issue : List (String × JVal)) :
    ∀ f ∈ missingFieldFindings loc issue, f.message.data.head? = some 'I' := by
  intro f hf
  obtain ⟨fd, _, hg⟩ := List.mem_filterMap.mp hf
  split at hg
  · cases hg
    exact head_of_app (head_of_app (by decide) _) _
  · cases hg

theorem issueRowStep_eq (ctx : IssuesCtx)
    (imap : List (String × (Nat × List (String × JVal)))) (lineNo : Nat)
    (issue : List (String × JVal)) :
    issueRowStep ctx imap lineNo issue =
      match validIdOf issue with
      | none =>
        (missingFieldFindings (fmtLoc ctx.issuesPath lineNo) issue ++
          [⟨"ERROR", "Issue `id` must be a non-empty string", fmtLoc ctx.issuesPath lineNo⟩],
          imap)
      | some issueId =>
        (missingFieldFindings (fmtLoc ctx.issuesPath lineNo) issue ++
          (if (dget imap issueId).isSome then [⟨"ERROR", dupMsg issueId,
            fmtLoc ctx.issuesPath lineNo⟩] else []) ++
          (issueChecksFront ctx (fmtLoc ctx.issuesPath lineNo) issue ++
            issueCommittedChecks (fmtLoc ctx.issuesPath lineNo) issue),
          dsetKeep imap issueId (lineNo, issue)) := by
  unfold issueRowStep missingFieldFindings issueBodyFindings dupMsg
  rfl

/-- Exact count of one committed-state ERROR across one issue row. -/
theorem issueRowStep_cmt_count (ctx : IssuesCtx)
    (imap : List (String × (Nat × List (String × JVal)))) (lineNo : Nat)
    (issue : List (String × JVal)) (sn : String)
    (hsn : sn ∈ ["dev_state", "review_initial_state", "review_regression_state"]) :
    (issueRowStep ctx imap lineNo issue).1.countP (fun f => f.message == cmtMsg sn) =
      if (validIdOf issue).isSome = true ∧
          isStrVal (dget issue "git_state") "committed" = true ∧
          isStrVal (dget issue sn) "done" = false then 1 else 0 := by
  have hchead : (cmtMsg sn).data.head? = some 'C' :=
    head_of_app (head_of_app (by decide) _) _
  rw [issueRowStep_eq]
  cases hid : validIdOf issue with
  | none =>
    simp only [List.countP_append]
    rw [countP_msg_zero hchead (fun f hf => by
      rw [missingFieldFindings_heads _ _ f hf]; decide)]
    rw [countP_msg_zero hchead (fun f hf => by
      rw [List.mem_singleton] at hf
      subst hf
      show ("Issue `id` must be a non-empty string" : String).data.head? ≠ some 'C'
      decide)]
    simp
  | some issueId =>
    have hD : ("Duplicate issue id `" : String).data.head? = some 'D' := by decide
    simp only [List.countP_append]
    rw [countP_msg_zero hchead (fun f hf => by
      rw [missingFieldFindings_heads _ _ f hf]; decide)]
    rw [countP_msg_zero (l := if (dget imap issueId).isSome then
          [⟨"ERROR", dupMsg issueId, fmtLoc ctx.issuesPath lineNo⟩] else []) hchead
      (fun f hf => by
        split at hf
        · rw [List.mem_singleton] at hf
          subst hf
          show (dupMsg issueId).data.head? ≠ some 'C'
          unfold dupMsg
          rw [head_of_app (head_of_app hD issueId) _]
          decide
        · simp at hf)]
    rw [countP_msg_zero hchead (fun f hf => by
      rcases issueChecksFront_heads ctx _ issue f hf with h | h | h | h <;>
        rw [h] <;> decide)]
    rw [issueCommittedChecks_count _ _ sn hsn]
    simp

/-- Exact count of the blocked-committed ERROR across one issue row. -/
theorem issueRowStep_blocked_count (ctx : IssuesCtx)
    (imap : List (String × (Nat × List (String × JVal)))) (lineNo : Nat)
    (issue : List (String × JVal)) :
    (issueRowStep ctx imap lineNo issue).1.countP
        (fun f => f.message == "Committed issue cannot be blocked") =
      if (validIdOf issue).isSome = true ∧
          isStrVal (dget issue "git_state") "committed" = true ∧
          isTrueVal (dget issue "blocked") = true then 1 else 0 := by
  have hchead : ("Committed issue cannot be blocked" : String).data.head? = some 'C' := by
    decide
  rw [issueRowStep_eq]
  cases hid : validIdOf issue with
  | none =>
    simp only [List.countP_append]
    rw [countP_msg_zero hchead (fun f hf => by
      rw [missingFieldFindings_heads _ _ f hf]; decide)]
    rw [countP_msg_zero hchead (fun f hf => by
      rw [List.mem_singleton] at hf
      subst hf
      show ("Issue `id` must be a non-empty string" : String).data.head? ≠ some 'C'
      decide)]
    simp
  | some issueId =>
    have hD : ("Duplicate issue id `" : String).data.head? = some 'D' := by decide
    simp only [List.countP_append]
    rw [countP_msg_zero hchead (fun f hf => by
      rw [missingFieldFindings_heads _ _ f hf]; decide)]
    rw [countP_msg_zero (l := if (dget imap issueId).isSome then
          [⟨"ERROR", dupMsg issueId, fmtLoc ctx.issuesPath lineNo⟩] else []) hchead
      (fun f hf => by
        split at hf
        · rw [List.mem_singleton] at hf
          subst hf
          show (dupMsg issueId).data.head? ≠ some 'C'
          unfold dupMsg
          rw [head_of_app (head_of_app hD issueId) _]
          decide
        · simp at hf)]
    rw [countP_msg_zero hchead (fun f hf => by
      rcases issueChecksFront_heads ctx _ issue f hf with h | h | h | h <;>
        rw [h] <;> decide)]
    rw [issueCommittedChecks_blocked_count]
    simp

/-- Exact count of one duplicate-id ERROR across one issue row. -/
theorem issueRowStep_dup_count (ctx : IssuesCtx)
    (imap : List (String × (Nat × List (String × JVal)))) (lineNo : Nat)
    (issue : List (String × JVal)) (i : String) :
    (issueRowStep ctx imap lineNo issue).1.countP (fun f => f.message == dupMsg i) =
      if validIdOf issue = some i ∧ (dget imap i).isSome = true then 1 else 0 := by
  have hD : ("Duplicate issue id `" : String).data.head? = some 'D' := by decide
  have hchead : (dupMsg i).data.head? = some 'D' := by
    unfold dupMsg
    exact head_of_app (head_of_app hD i) _
  rw [issueRowStep_eq]
  cases hid : validIdOf issue with
  | none =>
    simp only [List.countP_append]
    rw [countP_msg_zero hchead (fun f hf => by
      rw [missingFieldFindings_heads _ _ f hf]; decide)]
    rw [countP_msg_zero hchead (fun f hf => by
      rw [List.mem_singleton] at hf
      subst hf
      show ("Issue `id` must be a non-empty string" : String).data.head? ≠ some 'D'
      decide)]
    simp
  | some issueId =>
    have hdup : (if (dget imap issueId).isSome then
          [(⟨"ERROR", dupMsg issueId, fmtLoc ctx.issuesPath lineNo⟩ : Finding)]
          else []).countP (fun f => f.message == dupMsg i) =
        if issueId = i ∧ (dget imap i).isSome = true then 1 else 0 := by
      by_cases hii : issueId = i
      · subst hii
        by_cases hs : (dget imap issueId).isSome = true
        · rw [if_pos hs, if_pos ⟨rfl, hs⟩]
          simp
        · rw [if_neg hs, if_neg (fun hAnd => hs hAnd.2)]
          rfl
      · have hne : ¬ (issueId = i ∧ (dget imap i).isSome = true) :=
          fun hAnd => hii hAnd.1
        split
        · refine List.countP_eq_zero.mpr ?_
          intro f hf
          rw [List.mem_singleton] at hf
          subst hf
          simp only [beq_iff_eq]
          exact fun he => hii (dupMsg_inj _ _ he)
        · rfl
    simp only [List.countP_append]
    rw [countP_msg_zero hchead (fun f hf => by
      rw [missingFieldFindings_heads _ _ f hf]; decide)]
    rw [hdup]
    rw [countP_msg_zero hchead (fun f hf => by
      rcases issueChecksFront_heads ctx _ issue f hf with h | h | h | h <;>
        rw [h] <;> decide)]
    rw [countP_msg_zero hchead (fun f hf => by
      obtain ⟨hsev, hc⟩ := issueCommittedChecks_heads _ issue f hf
      rw [hc]
      decide)]
    by_cases hii : issueId = i
    · subst hii
      simp
    · rw [if_neg (fun hAnd => hii hAnd.1),
        if_neg (fun hAnd => hii (Option.some.inj hAnd.1))]

theorem getLast?_cons_or {α : Type} (a : α) (l : List α) :
    (a :: l).getLast? = (l.getLast?).or (some a) := by
  induction l generalizing a with
  | nil => rfl
  | cons b t ih =>
    rw [List.getLast?_cons_cons, ih b]
    cases t.getLast? <;> rfl

theorem issueRowStep_map_none (ctx : IssuesCtx)
    (imap : List (String × (Nat × List (String × JVal)))) (ln : Nat)
    (issue : List (String × JVal)) (h : validIdOf issue = none) :
    (issueRowStep ctx imap ln issue).2 = imap := by
  unfold issueRowStep
  rw [h]

theorem issueRowStep_map_some (ctx : IssuesCtx)
    (imap : List (String × (Nat × List (String × JVal)))) (ln : Nat)
    (issue : List (String × JVal)) (j : String) (h : validIdOf issue = some j) :
    (issueRowStep ctx imap ln issue).2 = dsetKeep imap j (ln, issue) := by
  unfold issueRowStep
  rw [h]

/-- The issue map built by the per-issue loop: the LAST row bearing a given
valid id is the one stored (Python dict assignment overwrites). -/
theorem processIssueRows_map (ctx : IssuesCtx) (i : String)
    (rows : List (Nat × List (String × JVal))) :
    ∀ imap, dget (processIssueRows ctx rows imap).2 i =
      ((rows.filter (fun r => validIdOf r.2 == some i)).getLast?).or (dget imap i) := by
  induction rows with
  | nil => intro imap; rfl
  | cons row rest ih =>
    intro imap
    obtain ⟨ln, issue⟩ := row
    have hstep : dget (processIssueRows ctx ((ln, issue) :: rest) imap).2 i =
        dget (processIssueRows ctx rest (issueRowStep ctx imap ln issue).2).2 i := rfl
    rw [hstep, ih]
    cases hid : validIdOf issue with
    | none =>
      have hf : List.filter (fun r => validIdOf r.2 == some i) ((ln, issue) :: rest) =
          List.filter (fun r => validIdOf r.2 == some i) rest :=
        List.filter_cons_of_neg (by
          show ¬ (validIdOf issue == some i) = true
          rw [hid]
          exact Bool.false_ne_true)
      rw [issueRowStep_map_none ctx imap ln issue hid, hf]
    | some j =>
      rw [issueRowStep_map_some ctx imap ln issue j hid]
      by_cases hji : j = i
      · subst hji
        have hf : List.filter (fun r => validIdOf r.2 == some j) ((ln, issue) :: rest) =
            (ln, issue) :: List.filter (fun r => validIdOf r.2 == some j) rest :=
          List.filter_cons_of_pos (by
            show (validIdOf issue == some j) = true
            rw [hid]
            exact beq_self_eq_true _)
        rw [hf, dget_dsetKeep_self, getLast?_cons_or]
        cases (List.filter (fun r => validIdOf r.2 == some j) rest).getLast? <;> rfl
      · have hf : List.filter (fun r => validIdOf r.2 == some i) ((ln, issue) :: rest) =
            List.filter (fun r => validIdOf r.2 == some i) rest :=
          List.filter_cons_of_neg (by
            show ¬ (validIdOf issue == some i) = true
            rw [hid]
            exact fun hcon => hji (Option.some.inj (eq_of_beq hcon)))
        rw [hf, dget_dsetKeep_ne imap (fun h => hji h.symm)]

/-- Total duplicate-id ERROR count for one id over the whole per-issue loop:
one finding per occurrence after the first already-present one. -/
theorem processIssueRows_dup_count (ctx : IssuesCtx) (i : String)
    (rows : List (Nat × List (String × JVal))) :
    ∀ imap, (processIssueRows ctx rows imap).1.countP (fun f => f.message == dupMsg i) =
      rows.countP (fun r => validIdOf r.2 == some i) -
        (if (dget imap i).isSome then 0 else 1) := by
  induction rows with
  | nil =>
    intro imap
    show 0 = 0 - _
    rw [Nat.zero_sub]
  | cons row rest ih =>
    intro imap
    obtain ⟨ln, issue⟩ := row
    have hstep : (processIssueRows ctx ((ln, issue) :: rest) imap).1 =
        (issueRowStep ctx imap ln issue).1 ++
          (processIssueRows ctx rest (issueRowStep ctx imap ln issue).2).1 := rfl
    rw [hstep, List.countP_append, issueRowStep_dup_count, ih, List.countP_cons]
    cases hid : validIdOf issue with
    | none =>
      rw [issueRowStep_map_none ctx imap ln issue hid]
      have h1 : (if (none : Option String) = some i ∧ (dget imap i).isSome = true
          then 1 else 0) = 0 := by simp
      have h2 : (if ((none : Option String) == some i) = true then 1 else 0) = 0 := rfl
      rw [h1, h2, Nat.zero_add, Nat.add_zero]
    | some j =>
      rw [issueRowStep_map_some ctx imap ln issue j hid]
      by_cases hji : j = i
      · subst hji
        have hpres : (dget (dsetKeep imap j (ln, issue)) j).isSome = true := by
          rw [dget_dsetKeep_self]
          rfl
        rw [hpres]
        have h1 : (if some j = some j ∧ (dget imap j).isSome = true then 1 else 0) =
            if (dget imap j).isSome = true then 1 else 0 := by
          by_cases hp : (dget imap j).isSome = true
          · rw [if_pos ⟨rfl, hp⟩, if_pos hp]
          · rw [if_neg (fun hAnd => hp hAnd.2), if_neg hp]
        have h2 : (if ((some j : Option String) == some j) = true then 1 else 0) = 1 := by
          rw [if_pos (beq_self_eq_true _)]
        rw [h1, h2, if_pos rfl]
        by_cases hp : (dget imap j).isSome = true
        · rw [if_pos hp, if_pos hp]
          omega
        · rw [if_neg hp, if_neg hp]
          omega
      · have hpres : dget (dsetKeep imap j (ln, issue)) i = dget imap i :=
          dget_dsetKeep_ne imap (fun hh => hji hh.symm) (ln, issue)
        rw [hpres]
        have h1 : (if some j = some i ∧ (dget imap i).isSome = true then 1 else 0) = 0 :=
          if_neg (fun hAnd => hji (Option.some.inj hAnd.1))
        have h2 : (if ((some j : Option String) == some i) = true then 1 else 0) = 0 := by
          cases hcon : ((some j : Option String) == some i) with
          | false => rfl
          | true => exact absurd (Option.some.inj (eq_of_beq hcon)) hji
        rw [h1, h2, Nat.zero_add, Nat.add_zero]

/-- Any finding carrying a duplicate-id message in one row is an ERROR. -/
theorem issueRowStep_dup_sev (ctx : IssuesCtx)
    (imap : List (String × (Nat × List (String × JVal)))) (ln : Nat)
    (issue : List (String × JVal)) (i : String) :
    ∀ f ∈ (issueRowStep ctx imap ln issue).1, f.message = dupMsg i →
      f.severity = "ERROR" := by
  intro f hf hmsg
  have hD : (dupMsg i).data.head? = some 'D' := by
    unfold dupMsg
    exact head_of_app (head_of_app (by decide) i) _
  rw [issueRowStep_eq] at hf
  cases hid : validIdOf issue with
  | none =>
    simp only [hid] at hf
    rcases List.mem_append.mp hf with h | h
    · have h1 := missingFieldFindings_heads _ _ f h
      rw [hmsg, hD] at h1
      exact absurd h1 (by decide)
    · rw [List.mem_singleton] at h
      subst h
      rfl
  | some j =>
    simp only [hid] at hf
    rcases List.mem_append.mp hf with h | h
    · rcases List.mem_append.mp h with h2 | h2
      · have h1 := missingFieldFindings_heads _ _ f h2
        rw [hmsg, hD] at h1
        exact absurd h1 (by decide)
      · split at h2
        · rw [List.mem_singleton] at h2
          subst h2
          rfl
        · cases h2
    · rcases List.mem_append.mp h with h2 | h2
      · rcases issueChecksFront_heads ctx _ issue f h2 with h1 | h1 | h1 | h1 <;>
          (rw [hmsg, hD] at h1; exact absurd h1 (by decide))
      · exact (issueCommittedChecks_heads _ issue f h2).1

/-- Any duplicate-id finding across the per-issue loop is an ERROR. -/
theorem processIssueRows_dup_sev (ctx : IssuesCtx) (i : String)
    (rows : List (Nat × List (String × JVal))) :
    ∀ imap f, f ∈ (processIssueRows ctx rows imap).1 → f.message = dupMsg i →
      f.severity = "ERROR" := by
  induction rows with
  | nil =>
    intro imap f hf
    cases hf
  | cons row rest ih =>
    intro imap f hf hmsg
    obtain ⟨ln, issue⟩ := row
    have hstep : (processIssueRows ctx ((ln, issue) :: rest) imap).1 =
        (issueRowStep ctx imap ln issue).1 ++
          (processIssueRows ctx rest (issueRowStep ctx imap ln issue).2).1 := rfl
    rw [hstep] at hf
    rcases List.mem_append.mp hf with h | h
    · exact issueRowStep_dup_sev ctx imap ln issue i f h hmsg
    · exact ih _ f h hmsg

/-- Meta row declaring two issues. -/
def exMeta2 : List (String × JVal) :=
  ("total_issues", .jint 2) :: exMeta

/-- **C6 counterexample**: with two issue rows sharing id "A" (line 2 with no
dependencies, line 3 depending on the unknown id "zzz"), the issue map keeps
the LAST occurrence, not the first: the stored entry is line 3's row, and the
later cross-reference lookup reports line 3's unknown dependency "zzz" — which
would be impossible if the first occurrence had won. The duplicate is still
flagged exactly once. -/
theorem C6_counterexample :
    (dget (processIssueRows exCtx
        [(2, exIssue "A" [] "pending" "pending" "pending" "uncommitted" false),
         (3, exIssue "A" [.jstr "zzz"] "pending" "pending" "pending" "uncommitted" false)]
        []).2 "A").map Prod.fst = some 3 ∧
    (dget (processIssueRows exCtx
        [(2, exIssue "A" [] "pending" "pending" "pending" "uncommitted" false),
         (3, exIssue "A" [.jstr "zzz"] "pending" "pending" "pending" "uncommitted" false)]
        []).2 "A").map Prod.fst ≠ some 2 ∧
    (Report.findings (check_issues exCtx
        [(1, exMeta2),
         (2, exIssue "A" [] "pending" "pending" "pending" "uncommitted" false),
         (3, exIssue "A" [.jstr "zzz"] "pending" "pending" "pending" "uncommitted" false)])).countP
      (fun f => f.message == dupMsg "A") = 1 ∧
    (Report.findings (check_issues exCtx
        [(1, exMeta2),
         (2, exIssue "A" [] "pending" "pending" "pending" "uncommitted" false),
         (3, exIssue "A" [.jstr "zzz"] "pending" "pending" "pending" "uncommitted" false)])).any
      (fun f => f.message == "Issue depends on unknown id `zzz`") = true := by
  refine ⟨by decide, by decide, by decide, by decide⟩

/-- **C6** (amended: the last occurrence wins, not the first): over the
per-issue loop of `check_issues`, (1) for every id the number of
duplicate-id findings is the number of rows carrying that valid id minus
one — one finding for each occurrence after the first, and validation
continues across all rows; (2) every duplicate-id finding is an ERROR;
(3) the issue map used for later cross-reference lookups stores, for each
id, the LAST row carrying it. -/
theorem C6_duplicates_flagged_last_wins :
    (∀ (ctx : IssuesCtx) (rows : List (Nat × List (String × JVal))) (i : String),
      (processIssueRows ctx rows []).1.countP (fun f => f.message == dupMsg i) =
        rows.countP (fun r => validIdOf r.2 == some i) - 1) ∧
    (∀ (ctx : IssuesCtx) (rows : List (Nat × List (String × JVal))) (i : String)
        (f : Finding), f ∈ (processIssueRows ctx rows []).1 → f.message = dupMsg i →
      f.severity = "ERROR") ∧
    (∀ (ctx : IssuesCtx) (rows : List (Nat × List (String × JVal))) (i : String),
      dget (processIssueRows ctx rows []).2 i =
        (rows.filter (fun r => validIdOf r.2 == some i)).getLast?) := by
  refine ⟨fun ctx rows i => ?_, fun ctx rows i f hf hmsg =>
    processIssueRows_dup_sev ctx i rows [] f hf hmsg, fun ctx rows i => ?_⟩
  · rw [processIssueRows_dup_count]
    rfl
  · rw [processIssueRows_map]
    cases (rows.filter (fun r => validIdOf r.2 == some i)).getLast? <;> rfl

theorem C6_witness :
    (processIssueRows exCtx
        [(2, exIssue "A" [] "pending" "pending" "pending" "uncommitted" false),
         (3, exIssue "A" [] "pending" "pending" "pending" "uncommitted" false)]
        []).1.countP (fun f => f.message == dupMsg "A") =
      ([(2, exIssue "A" [] "pending" "pending" "pending" "uncommitted" false),
        (3, exIssue "A" [] "pending" "pending" "pending" "uncommitted" false)] :
          List (Nat × List (String × JVal))).countP
        (fun r => validIdOf r.2 == some "A") - 1 ∧
    (⟨"ERROR", dupMsg "A", "issues.jsonl:3"⟩ : Finding).severity = "ERROR" :=
  ⟨C6_duplicates_flagged_last_wins.1 exCtx
      [(2, exIssue "A" [] "pending" "pending" "pending" "uncommitted" false),
       (3, exIssue "A" [] "pending" "pending" "pending" "uncommitted" false)] "A",
    C6_duplicates_flagged_last_wins.2.1 exCtx
      [(2, exIssue "A" [] "pending" "pending" "pending" "uncommitted" false),
       (3, exIssue "A" [] "pending" "pending" "pending" "uncommitted" false)] "A"
      ⟨"ERROR", dupMsg "A", "issues.jsonl:3"⟩ (by decide) (by decide)⟩

theorem cmt_dev_mem (loc : String) (issue : List (String × JVal))
    (hgit : isStrVal (dget issue "git_state") "committed" = true)
    (hdev : isStrVal (dget issue "dev_state") "done" = false) :
    (⟨"ERROR", cmtMsg "dev_state", loc⟩ : Finding) ∈ issueCommittedChecks loc issue := by
  unfold issueCommittedChecks
  rw [if_pos hgit]
  refine List.mem_append.mpr (Or.inl ?_)
  refine List.mem_filterMap.mpr ⟨"dev_state", by decide, ?_⟩
  simp only [hdev, Bool.false_eq_true, if_false]
  rfl

theorem issueRowStep_cmt_dev_mem (ctx : IssuesCtx)
    (imap : List (String × (Nat × List (String × JVal)))) (ln : Nat)
    (issue : List (String × JVal)) (hid : (validIdOf issue).isSome = true)
    (hgit : isStrVal (dget issue "git_state") "committed" = true)
    (hdev : isStrVal (dget issue "dev_state") "done" = false) :
    (⟨"ERROR", cmtMsg "dev_state", fmtLoc ctx.issuesPath ln⟩ : Finding) ∈
      (issueRowStep ctx imap ln issue).1 := by
  obtain ⟨j, hj⟩ := Option.isSome_iff_exists.mp hid
  rw [issueRowStep_eq]
  simp only [hj]
  exact List.mem_append.mpr (Or.inr (List.mem_append.mpr
    (Or.inr (cmt_dev_mem _ issue hgit hdev))))

/-- A row whose `id` is the integer 42 rather than a string. -/
def exBadIdRow : List (String × JVal) :=
  ("id", JVal.jint 42) :: exIssue "X" [] "pending" "done" "done" "committed" false

/-- **C3 counterexample**: a record with `git_state="committed"` and
`dev_state="pending"` but a non-string `id` (the integer 42) is skipped by
the `continue` at the invalid-id guard before the committed-state checks
run: `check_issues` emits NO finding mentioning "committed" at all, so the
claim's "every issue record with git_state committed" is too broad. -/
theorem C3_counterexample :
    isStrVal (dget exBadIdRow "git_state") "committed" = true ∧
    isStrVal (dget exBadIdRow "dev_state") "done" = false ∧
    (Report.findings (check_issues exCtx [(1, exMeta), (2, exBadIdRow)])).all
      (fun f => !(lcContains f.message "committed")) = true := by
  refine ⟨by decide, by decide, by decide⟩

/-- **C3** (amended: restricted to records whose `id` is a valid non-empty
string — records failing the id guard are skipped before the committed
checks): for such a record with `git_state="committed"`, each of the three
state fields not equal to "done" contributes exactly one ERROR finding, a
true `blocked` contributes exactly one more, and a committed record with
`dev_state` not "done" yields an ERROR mentioning both "committed" and
"done". -/
theorem C3_committed_state_errors :
    (∀ (ctx : IssuesCtx) (imap : List (String × (Nat × List (String × JVal))))
        (ln : Nat) (issue : List (String × JVal)) (sn : String),
      sn ∈ ["dev_state", "review_initial_state", "review_regression_state"] →
      (issueRowStep ctx imap ln issue).1.countP (fun f => f.message == cmtMsg sn) =
        if (validIdOf issue).isSome = true ∧
            isStrVal (dget issue "git_state") "committed" = true ∧
            isStrVal (dget issue sn) "done" = false then 1 else 0) ∧
    (∀ (ctx : IssuesCtx) (imap : List (String × (Nat × List (String × JVal))))
        (ln : Nat) (issue : List (String × JVal)),
      (issueRowStep ctx imap ln issue).1.countP
          (fun f => f.message == "Committed issue cannot be blocked") =
        if (validIdOf issue).isSome = true ∧
            isStrVal (dget issue "git_state") "committed" = true ∧
            isTrueVal (dget issue "blocked") = true then 1 else 0) ∧
    (∀ (ctx : IssuesCtx) (imap : List (String × (Nat × List (String × JVal))))
        (ln : Nat) (issue : List (String × JVal)),
      (validIdOf issue).isSome = true →
      isStrVal (dget issue "git_state") "committed" = true →
      isStrVal (dget issue "dev_state") "done" = false →
      ∃ f, f ∈ (issueRowStep ctx imap ln issue).1 ∧ f.severity = "ERROR" ∧
        lcContains f.message "committed" = true ∧ lcContains f.message "done" = true) :=
  ⟨fun ctx imap ln issue sn hsn => issueRowStep_cmt_count ctx imap ln issue sn hsn,
   fun ctx imap ln issue => issueRowStep_blocked_count ctx imap ln issue,
   fun ctx imap ln issue hid hgit hdev =>
     ⟨⟨"ERROR", cmtMsg "dev_state", fmtLoc ctx.issuesPath ln⟩,
      issueRowStep_cmt_dev_mem ctx imap ln issue hid hgit hdev, rfl,
      (show lcContains (cmtMsg "dev_state") "committed" = true by decide),
      (show lcContains (cmtMsg "dev_state") "done" = true by decide)⟩⟩

theorem C3_witness :
    (issueRowStep exCtx [] 2
        (exIssue "A" [] "pending" "done" "done" "committed" false)).1.countP
      (fun f => f.message == cmtMsg "dev_state") =
      (if (validIdOf (exIssue "A" [] "pending" "done" "done" "committed" false)).isSome = true ∧
          isStrVal (dget (exIssue "A" [] "pending" "done" "done" "committed" false)
            "git_state") "committed" = true ∧
          isStrVal (dget (exIssue "A" [] "pending" "done" "done" "committed" false)
            "dev_state") "done" = false then 1 else 0) ∧
    (∃ f, f ∈ (issueRowStep exCtx [] 2
        (exIssue "A" [] "pending" "done" "done" "committed" false)).1 ∧
      f.severity = "ERROR" ∧ lcContains f.message "committed" = true ∧
      lcContains f.message "done" = true) :=
  ⟨C3_committed_state_errors.1 exCtx [] 2
      (exIssue "A" [] "pending" "done" "done" "committed" false) "dev_state" (by decide),
   C3_committed_state_errors.2.2 exCtx [] 2
      (exIssue "A" [] "pending" "done" "done" "committed" false)
      (by decide) (by decide) (by decide)⟩

/-- The three execution_context finding messages of source lines 364-381:
object absent (or JSON null), a sub-field absent or empty, value not an
object. -/
def isEcMessage (m : String) : Prop :=
  m = "Meta `execution_context` missing; using fallback context (project_root/current_branch)" ∨
  (∃ k fb : String,
    m = "Meta execution_context missing `" ++ k ++ "`; fallback available (" ++ fb ++ ")") ∨
  m = "Meta `execution_context` is not an object; fallback context will be used"

theorem ecMessage_head {m : String} (h : isEcMessage m) : m.data.head? = some 'M' := by
  rcases h with h | ⟨k, fb, h⟩ | h
  · rw [h]
    decide
  · rw [h]
    exact head_of_app (head_of_app (head_of_app (head_of_app (by decide) k) _) fb) _
  · rw [h]
    decide

theorem not_ec_of_head {m : String} {c : Char} (h : m.data.head? = some c)
    (hc : c ≠ 'M') : ¬ isEcMessage m := by
  intro hec
  rw [ecMessage_head hec] at h
  exact hc (Option.some.inj h).symm

theorem missingMeta_ne_ec2 (fd k fb : String) :
    "Meta missing field `" ++ fd ++ "`" ≠
      "Meta execution_context missing `" ++ k ++ "`; fallback available (" ++ fb ++ ")" := by
  simp only [String.append_assoc]
  exact str_app_ne (by decide) _ _

theorem missingMeta_not_ec (fd : String) :
    ¬ isEcMessage ("Meta missing field `" ++ fd ++ "`") := by
  intro hec
  rcases hec with h | ⟨k, fb, h⟩ | h
  · exact str_app₂_ne_lit (by decide) fd "`" h
  · exact missingMeta_ne_ec2 fd k fb h
  · exact str_app₂_ne_lit (by decide) fd "`" h

theorem totalMsg_not_ec (s t : String) :
    ¬ isEcMessage ("Meta total_issues=" ++ s ++ " does not match actual=" ++ t) := by
  intro hec
  rcases hec with h | ⟨k, fb, h⟩ | h
  · revert h
    simp only [String.append_assoc]
    exact str_app_ne_lit (by decide) _
  · revert h
    simp only [String.append_assoc]
    exact str_app_ne (by decide) _ _
  · revert h
    simp only [String.append_assoc]
    exact str_app_ne_lit (by decide) _

theorem ecFindings_info (ctx : IssuesCtx) (meta : List (String × JVal)) (loc : String) :
    ∀ f ∈ ecFindings ctx meta loc, f.severity = "INFO" := by
  intro f hf
  unfold ecFindings at hf
  split at hf
  · rw [List.mem_singleton] at hf
    subst hf
    rfl
  · rw [List.mem_singleton] at hf
    subst hf
    rfl
  · obtain ⟨key, _, hg⟩ := List.mem_filterMap.mp hf
    split at hg
    · cases hg
      rfl
    · cases hg
  · rw [List.mem_singleton] at hf
    subst hf
    rfl

theorem sourceFindings_info (ctx : IssuesCtx) (meta : List (String × JVal)) (loc : String) :
    ∀ f ∈ sourceFindings ctx meta loc, f.severity = "INFO" := by
  intro f hf
  unfold sourceFindings at hf
  split at hf
  · split at hf
    · rw [List.mem_singleton] at hf
      subst hf
      rfl
    · cases hf
  · cases hf

theorem metaChecks_ec (ctx : IssuesCtx) (meta : List (String × JVal)) (lineNo : Nat) :
    ∀ f ∈ metaChecks ctx meta lineNo,
      f.severity = "INFO" ∨ ¬ isEcMessage f.message := by
  intro f hf
  unfold metaChecks at hf
  rcases List.mem_append.mp hf with h | h
  · rcases List.mem_append.mp h with h2 | h2
    · rcases List.mem_append.mp h2 with h3 | h3
      · split at h3
        · cases h3
        · rw [List.mem_singleton] at h3
          subst h3
          exact Or.inr (not_ec_of_head (show
            ("First line must be `type=meta`" : String).data.head? = some 'F' by decide)
            (by decide))
      · obtain ⟨fd, _, hg⟩ := List.mem_filterMap.mp h3
        split at hg
        · cases hg
          exact Or.inr (missingMeta_not_ec fd)
        · cases hg
    · exact Or.inl (ecFindings_info ctx meta _ f h2)
  · exact Or.inl (sourceFindings_info ctx meta _ f h)

theorem totalIssuesFindings_not_ec (ctx : IssuesCtx) (meta : List (String × JVal))
    (lineNo : Nat) (actual : Nat) :
    ∀ f ∈ totalIssuesFindings ctx meta lineNo actual, ¬ isEcMessage f.message := by
  intro f hf
  unfold totalIssuesFindings at hf
  split at hf
  · split at hf
    · rw [List.mem_singleton] at hf
      subst hf
      exact totalMsg_not_ec _ _
    · cases hf
  · split at hf
    · split at hf
      · rw [List.mem_singleton] at hf
        subst hf
        exact totalMsg_not_ec _ _
      · cases hf
    · split at hf
      · rw [List.mem_singleton] at hf
        subst hf
        exact totalMsg_not_ec _ _
      · cases hf
  · cases hf

/-- No per-issue-row finding message starts with the letter M. -/
theorem issueRowStep_not_M (ctx : IssuesCtx)
    (imap : List (String × (Nat × List (String × JVal)))) (ln : Nat)
    (issue : List (String × JVal)) :
    ∀ f ∈ (issueRowStep ctx imap ln issue).1, f.message.data.head? ≠ some 'M' := by
  intro f hf
  rw [issueRowStep_eq] at hf
  cases hid : validIdOf issue with
  | none =>
    simp only [hid] at hf
    rcases List.mem_append.mp hf with h | h
    · rw [missingFieldFindings_heads _ _ f h]
      decide
    · rw [List.mem_singleton] at h
      subst h
      show ("Issue `id` must be a non-empty string" : String).data.head? ≠ some 'M'
      decide
  | some j =>
    simp only [hid] at hf
    rcases List.mem_append.mp hf with h | h
    · rcases List.mem_append.mp h with h2 | h2
      · rw [missingFieldFindings_heads _ _ f h2]
        decide
      · split at h2
        · rw [List.mem_singleton] at h2
          subst h2
          show (dupMsg j).data.head? ≠ some 'M'
          unfold dupMsg
          rw [head_of_app (head_of_app (show
            ("Duplicate issue id `" : String).data.head? = some 'D' by decide) j) _]
          decide
        · cases h2
    · rcases List.mem_append.mp h with h2 | h2
      · rcases issueChecksFront_heads ctx _ issue f h2 with h1 | h1 | h1 | h1 <;>
          (rw [h1]; decide)
      · rw [(issueCommittedChecks_heads _ issue f h2).2]
        decide

theorem processIssueRows_not_M (ctx : IssuesCtx)
    (rows : List (Nat × List (String × JVal))) :
    ∀ imap f, f ∈ (processIssueRows ctx rows imap).1 →
      f.message.data.head? ≠ some 'M' := by
  induction rows with
  | nil =>
    intro imap f hf
    cases hf
  | cons row rest ih =>
    intro imap f hf
    obtain ⟨ln, issue⟩ := row
    have hstep : (processIssueRows ctx ((ln, issue) :: rest) imap).1 =
        (issueRowStep ctx imap ln issue).1 ++
          (processIssueRows ctx rest (issueRowStep ctx imap ln issue).2).1 := rfl
    rw [hstep] at hf
    rcases List.mem_append.mp hf with h | h
    · exact issueRowStep_not_M ctx imap ln issue f h
    · exact ih _ f h

theorem depStep_not_M (ctx : IssuesCtx)
    (imap : List (String × (Nat × List (String × JVal)))) (issueId loc : String) :
    ∀ (deps : List JVal) (edges : List (String × List String)),
      ∀ f ∈ (depStep ctx imap issueId loc deps edges).1,
        f.message.data.head? ≠ some 'M' := by
  intro deps
  induction deps with
  | nil =>
    intro edges f hf
    cases hf
  | cons dep rest ih =>
    intro edges f hf
    cases dep with
    | jstr s =>
      simp only [depStep] at hf
      split at hf
      · rcases List.mem_cons.mp hf with h | h
        · subst h
          show ("depends_on entries must be non-empty strings" : String).data.head? ≠ some 'M'
          decide
        · exact ih edges f h
      · split at hf
        · rcases List.mem_cons.mp hf with h | h
          · subst h
            show ("Issue cannot depend on itself" : String).data.head? ≠ some 'M'
            decide
          · exact ih edges f h
        · split at hf
          · rcases List.mem_cons.mp hf with h | h
            · subst h
              show ("Issue depends on unknown id `" ++ s ++ "`" : String).data.head? ≠
                some 'M'
              rw [head_of_app (head_of_app (show
                ("Issue depends on unknown id `" : String).data.head? = some 'I'
                by decide) s) _]
              decide
            · exact ih edges f h
          · exact ih _ f hf
    | jnull =>
      simp only [depStep] at hf
      rcases List.mem_cons.mp hf with h | h
      · subst h
        show ("depends_on entries must be non-empty strings" : String).data.head? ≠ some 'M'
        decide
      · exact ih edges f h
    | jbool b =>
      simp only [depStep] at hf
      rcases List.mem_cons.mp hf with h | h
      · subst h
        show ("depends_on entries must be non-empty strings" : String).data.head? ≠ some 'M'
        decide
      · exact ih edges f h
    | jint n =>
      simp only [depStep] at hf
      rcases List.mem_cons.mp hf with h | h
      · subst h
        show ("depends_on entries must be non-empty strings" : String).data.head? ≠ some 'M'
        decide
      · exact ih edges f h
    | jarr a =>
      simp only [depStep] at hf
      rcases List.mem_cons.mp hf with h | h
      · subst h
        show ("depends_on entries must be non-empty strings" : String).data.head? ≠ some 'M'
        decide
      · exact ih edges f h
    | jobj o =>
      simp only [depStep] at hf
      rcases List.mem_cons.mp hf with h | h
      · subst h
        show ("depends_on entries must be non-empty strings" : String).data.head? ≠ some 'M'
        decide
      · exact ih edges f h

theorem graphLoop_not_M (ctx : IssuesCtx)
    (imap : List (String × (Nat × List (String × JVal)))) :
    ∀ (entries : List (String × (Nat × List (String × JVal))))
      (edges : List (String × List String)),
      ∀ f ∈ (graphLoop ctx imap entries edges).1,
        f.message.data.head? ≠ some 'M' := by
  intro entries
  induction entries with
  | nil =>
    intro edges f hf
    cases hf
  | cons e rest ih =>
    intro edges f hf
    obtain ⟨issueId, ln, issue⟩ := e
    simp only [graphLoop] at hf
    split at hf
    · rcases List.mem_append.mp hf with h | h
      · exact depStep_not_M ctx imap issueId _ _ edges f h
      · exact ih _ f h
    · exact ih edges f hf

theorem graphPhase_not_M (ctx : IssuesCtx)
    (imap : List (String × (Nat × List (String × JVal)))) :
    ∀ f ∈ graphPhase ctx imap, f.message.data.head? ≠ some 'M' := by
  intro f hf
  unfold graphPhase at hf
  rcases List.mem_append.mp hf with h | h
  · exact graphLoop_not_M ctx imap imap _ f h
  · split at h
    · rw [List.mem_singleton] at h
      subst h
      show ("Issue dependency cycle detected: " ++ String.intercalate " -> " _ :
        String).data.head? ≠ some 'M'
      rw [head_of_app (show
        ("Issue dependency cycle detected: " : String).data.head? = some 'I' by decide) _]
      decide
    · cases h

theorem not_ec_of_not_M {m : String} (h : m.data.head? ≠ some 'M') :
    ¬ isEcMessage m :=
  fun hec => h (ecMessage_head hec)

/-- **C4**: every finding of `check_issues` whose message is one of the three
execution_context messages (object absent or null, sub-field absent or empty,
value not an object) has severity INFO — never ERROR or WARN. -/
theorem C4_execution_context_only_info :
    ∀ (ctx : IssuesCtx) (rows : List (Nat × List (String × JVal))) (f : Finding),
      f ∈ Report.findings (check_issues ctx rows) → isEcMessage f.message →
      f.severity = "INFO" := by
  intro ctx rows f hf hec
  unfold check_issues at hf
  split at hf
  · cases hf
  · split at hf
    · rcases List.mem_append.mp hf with h | h
      · rcases metaChecks_ec ctx _ _ f h with h1 | h1
        · exact h1
        · exact absurd hec h1
      · rw [List.mem_singleton] at h
        subst h
        exact absurd hec (not_ec_of_head (show
          ("No issue rows after meta" : String).data.head? = some 'N' by decide) (by decide))
    · rcases List.mem_append.mp hf with h | h
      · rcases List.mem_append.mp h with h2 | h2
        · rcases List.mem_append.mp h2 with h3 | h3
          · rcases metaChecks_ec ctx _ _ f h3 with h1 | h1
            · exact h1
            · exact absurd hec h1
          · exact absurd hec (totalIssuesFindings_not_ec ctx _ _ _ f h3)
        · exact absurd hec (not_ec_of_not_M (processIssueRows_not_M ctx _ _ f h2))
      · exact absurd hec (not_ec_of_not_M (graphPhase_not_M ctx _ f h))

/-- Meta row with no `execution_context` key. -/
def exMetaNoEc : List (String × JVal) :=
  [("type", .jstr "meta"), ("plan", .jstr "docs/plans/plan.md"), ("goal", .jstr "g"),
   ("tech_stack", .jstr "python"), ("source", .jstr "docs/plans/plan.md"),
   ("total_issues", .jint 1)]

theorem C4_witness :
    Finding.severity ⟨"INFO",
      "Meta `execution_context` missing; using fallback context (project_root/current_branch)",
      "issues.jsonl:1"⟩ = "INFO" :=
  C4_execution_context_only_info exCtx
    [(1, exMetaNoEc), (2, exIssue "A" [] "pending" "pending" "pending" "uncommitted" false)]
    ⟨"INFO",
      "Meta `execution_context` missing; using fallback context (project_root/current_branch)",
      "issues.jsonl:1"⟩
    (by decide) (Or.inl rfl)

/-- Python line-break characters recognized by `str.splitlines`. -/
def isLineBreak (c : Char) : Bool :=
  c = '\n' || c = '\r' || c = '\x0b' || c = '\x0c' ||
  c = '\x1c' || c = '\x1d' || c = '\x1e' || c = '\u0085' ||
  c = ' ' || c = ' '

def splitlinesGo : List Char → List Char → Bool → List (List Char)
  | [], acc, _ => if acc.isEmpty then [] else [acc.reverse]
  | c :: rest, acc, lastCR =>
    if lastCR && c = '\n' then splitlinesGo rest acc false
    else if c = '\r' then acc.reverse :: splitlinesGo rest [] true
    else if isLineBreak c then acc.reverse :: splitlinesGo rest [] false
    else splitlinesGo rest (c :: acc) false

/-- Python `str.splitlines()`: split at line breaks (`\r\n` counts once — the
flag marks a just-seen `\r` whose following `\n` is absorbed), no trailing
empty line for a trailing break. -/
def splitlinesPy (s : List Char) : List (List Char) :=
  splitlinesGo s [] false

/-- `([0-9]+(?:\.[0-9]+)?)` followed by a literal `:` (the tail of
`TASK_HEADER_RE` after `Task\s+`). The runs are maximal; backtracking cannot
produce any other split because the character after a maximal digit run is
never a digit. Returns the id characters and the rest after the colon. -/
def taskIdNum (l : List Char) : Option (List Char × List Char) :=
  match l.span Char.isDigit with
  | ([], _) => none
  | (d1, rest) =>
    match rest with
    | [] => none
    | c :: r2 =>
      if c = ':' then some (d1, r2)
      else if c = '.' then
        match r2.span Char.isDigit with
        | ([], _) => none
        | (d2, r3) =>
          match r3 with
          | [] => none
          | c2 :: r4 => if c2 = ':' then some (d1 ++ '.' :: d2, r4) else none
      else none

/-- `\s+`: require at least one whitespace character, consume the maximal run
(the following regex atom never matches whitespace, so the maximal run is the
only viable split). -/
def reqSpace (l : List Char) : Option (List Char) :=
  match l with
  | [] => none
  | c :: rest => if pyIsSpace c then some (rest.dropWhile pyIsSpace) else none

/-- `TASK_HEADER_RE.match` = `^###\s+Task\s+([0-9]+(?:\.[0-9]+)?):\s+(.+)$` on
an already-stripped line (`parse_tasks` applies it to `line.strip()`, so the
line cannot end in whitespace and the greedy `(.+)` is the whole rest, which
must be nonempty). -/
def taskHeaderMatch (line : List Char) : Option (List Char × List Char) :=
  match stripPre ['#', '#', '#'] line with
  | none => none
  | some r1 =>
    match reqSpace r1 with
    | none => none
    | some r2 =>
      match stripPre ['T', 'a', 's', 'k'] r2 with
      | none => none
      | some r3 =>
        match reqSpace r3 with
        | none => none
        | some r4 =>
          match taskIdNum r4 with
          | none => none
          | some (tid, r5) =>
            match reqSpace r5 with
            | none => none
            | some r6 => if r6.isEmpty then none else some (tid, r6)

/-- One task header line per match, with the 1-based line index; group 2 is
stripped (`match.group(2).strip()`). -/
def buildStarts : List (List Char) → Nat → List (String × String × Nat)
  | [], _ => []
  | line :: rest, idx =>
    match taskHeaderMatch (pyStrip line) with
    | some (tid, title) =>
      (String.mk tid, String.mk (pyStrip title), idx) :: buildStarts rest (idx + 1)
    | none => buildStarts rest (idx + 1)

/-- The task blocks: `lines[start_line - 1 : end_line]` where `end_line` is the
next header line minus one, or the end of the file. -/
def buildTasks (lines : List (List Char)) :
    List (String × String × Nat) → List (String × String × Nat × List String)
  | [] => []
  | (tid, title, sl) :: rest =>
    let endLine := match rest with
      | (_, _, sl2) :: _ => sl2 - 1
      | [] => lines.length
    (tid, title, sl, ((lines.take endLine).drop (sl - 1)).map String.mk) ::
      buildTasks lines rest

/-- `parse_tasks` (source lines 211-226). -/
def parse_tasks (planText : String) : List (String × String × Nat × List String) :=
  let lines := splitlinesPy planText.data
  buildTasks lines (buildStarts lines 1)

/-- `TASK_REF_RE` = `Task\s+([0-9]+(?:\.[0-9]+)?)` (IGNORECASE) at the current
position: the digit runs are maximal and the optional `.digits` group is taken
exactly when a dot с at least one digit follows. Returns the captured group
and the rest after the whole match. -/
def matchTaskRef (l : List Char) : Option (List Char × List Char) :=
  match stripLabelCI "Task".data l with
  | none => none
  | some r1 =>
    match reqSpace r1 with
    | none => none
    | some r2 =>
      match r2.span Char.isDigit with
      | ([], _) => none
      | (d1, r3) =>
        match r3 with
        | [] => some (d1, [])
        | c :: r4 =>
          if c = '.' then
            match r4.span Char.isDigit with
            | ([], _) => some (d1, r3)
            | (d2, r5) => some (d1 ++ '.' :: d2, r5)
          else some (d1, r3)

/-- `TASK_REF_RE.findall`: scan left to right, resuming after each whole
match. Fuel is the remaining length, which bounds the number of steps since
every step consumes at least one character. -/
def findallGo : Nat → List Char → List (List Char)
  | 0, _ => []
  | _, [] => []
  | Nat.succ fuel, l =>
    match matchTaskRef l with
    | some (g, rest) => g :: findallGo fuel rest
    | none =>
      match l with
      | [] => []
      | _ :: t => findallGo fuel t

/-- `parse_depends` (source lines 239-243). -/
def parse_depends (raw_value : String) : List String :=
  let value := pyStripS raw_value
  if value.data.isEmpty || (value.data.map Char.toLower == "none".data) then []
  else (findallGo value.data.length value.data).map String.mk

/-- Suffixes of the text that follow a `\n` — the `re.MULTILINE` positions
where `^` can match, besides the start of the text. -/
def nlSuffixes : List Char → List (List Char)
  | [] => []
  | c :: rest =>
    if c = '\n' then rest :: nlSuffixes rest else nlSuffixes rest

/-- Case-insensitive label words separated by `\s+` (for `Tech\s+Stack` and
`Execution\s+Context`). -/
def wordsHit : List String → List Char → Option (List Char)
  | [], l => some l
  | [w], l => stripLabelCI w.data l
  | w :: ws, l =>
    match stripLabelCI w.data l with
    | none => none
    | some r =>
      match reqSpace r with
      | none => none
      | some r2 => wordsHit ws r2

/-- One header pattern `^\s*\*\*{words}:\*\*\s*\S+` at one position. The
greedy `\s*` runs can cross line breaks (`\s` includes `\n`), and `\S+`
holds iff anything non-whitespace remains after the final run. -/
def headerAt (words : List String) (l : List Char) : Bool :=
  match stripPre ['*', '*'] (dropSpaces l) with
  | none => false
  | some r1 =>
    match wordsHit words r1 with
    | none => false
    | some r2 =>
      match stripPre [':', '*', '*'] r2 with
      | none => false
      | some r3 => !(dropSpaces r3).isEmpty

/-- `re.search(..., re.IGNORECASE | re.MULTILINE)`: some position — the text
start or any position right after a newline — matches. -/
def headerSearch (words : List String) (text : List Char) : Bool :=
  (text :: nlSuffixes text).any (headerAt words)

def header_patterns : List (String × List String) :=
  [("Goal", ["Goal"]), ("Architecture", ["Architecture"]),
   ("Tech Stack", ["Tech", "Stack"]),
   ("Execution Context", ["Execution", "Context"])]

def required_task_fields : List String :=
  ["Priority", "Area", "Depends On", "Acceptance Criteria",
   "Review (Dev)", "Review (Regression)"]

/-- The per-task findings of source lines 280-311, in emission order. -/
def planTaskFindings (planPath : String) (taskIds : List String)
    (task : String × String × Nat × List String) : List Finding :=
  let tid := task.1
  let title := task.2.1
  let location := planPath ++ ":" ++ toString task.2.2.1
  let block := task.2.2.2
  (required_task_fields.filterMap fun fd =>
    if extract_field block fd = "" then
      some ⟨"ERROR", "Task " ++ tid ++ " (" ++ title ++ ") missing field `" ++ fd ++ "`",
        location⟩
    else none) ++
  (let priority := extract_field block "Priority"
   if priority ≠ "" ∧ priority ∉ (["P0", "P1", "P2"] : List String) then
     [⟨"ERROR", "Task " ++ tid ++ " invalid Priority `" ++ priority ++ "`", location⟩]
   else []) ++
  (let depends_raw := extract_field block "Depends On"
   let deps := parse_depends depends_raw
   (if depends_raw ≠ "" ∧ depends_raw.data.map Char.toLower ≠ "none".data ∧ deps = [] then
      [⟨"ERROR", "Task " ++ tid ++ " has invalid Depends On `" ++ depends_raw ++ "`",
        location⟩]
    else []) ++
   deps.flatMap (fun dep =>
     (if taskIds.contains dep = false then
        [⟨"ERROR", "Task " ++ tid ++ " depends on unknown Task " ++ dep, location⟩]
      else []) ++
     (if dep = tid then
        [⟨"ERROR", "Task " ++ tid ++ " cannot depend on itself", location⟩]
      else []))) ++
  (if block.any (fun line => listPrefix "**Files:**".data (pyStrip line.data)) then []
   else [⟨"ERROR", "Task " ++ tid ++ " missing `**Files:**` section", location⟩])

/-- `task_ids = {task_id for ...}`: the distinct task ids. -/
def planTaskIds (tasks : List (String × String × Nat × List String)) : List String :=
  (tasks.map (fun t => t.1)).dedup

/-- `edges[p.1] = v` on a dict whose keys already include `p.1`. -/
def dreplace (E : List (String × List String)) (k : String) (v : List String) :
    List (String × List String) :=
  E.map (fun p => if p.1 = k then (k, v) else p)

/-- `edges = {task_id: [] for ...}` then `edges[task_id] = deps` per task —
the RAW dependency list, with no exclusion of self or unknown targets
(source line 295). -/
def planEdges (tasks : List (String × String × Nat × List String)) :
    List (String × List String) :=
  tasks.foldl
    (fun E t => dreplace E t.1
      (parse_depends (extract_field t.2.2.2 "Depends On")))
    ((planTaskIds tasks).map (fun i => (i, [])))

/-- `check_plan` (source lines 246-313) from the text onward (`read_text` is
the excluded file-read collaborator). -/
def check_plan (planPath : String) (text : String) : Report :=
  let headerF := header_patterns.filterMap fun p =>
    if headerSearch p.2 text.data = false then
      some ⟨"ERROR", "Missing required header `" ++ p.1 ++ "`", planPath⟩
    else none
  let tasks := parse_tasks text
  match tasks with
  | [] => ⟨"plan", headerF ++
      [⟨"ERROR", "No task section found (`### Task N:`)", planPath⟩]⟩
  | _ :: _ =>
    let taskIds := planTaskIds tasks
    let perTask := tasks.flatMap (planTaskFindings planPath taskIds)
    let cycleF := match detect_cycle taskIds (planEdges tasks) with
      | some cycle =>
        [⟨"ERROR", "Task dependency cycle detected: " ++
          String.intercalate " -> " cycle, planPath⟩]
      | none => []
    ⟨"plan", headerF ++ perTask ++ cycleF⟩

def exPlanSelf : String :=
  "**Goal:** g\n**Architecture:** a\n**Tech Stack:** t\n**Execution Context:** e\n### Task 1: T\n**Priority:** P0\n**Area:** x\n**Depends On:** Task 1\n**Acceptance Criteria:** c\n**Review (Dev):** r\n**Review (Regression):** r\n**Files:** f\n"

def exPlanTwo : String :=
  "**Goal:** g\n**Architecture:** a\n**Tech Stack:** t\n**Execution Context:** e\n### Task 1: T\n**Priority:** P0\n**Area:** x\n**Depends On:** Task 2.5, task 3\n**Acceptance Criteria:** c\n**Review (Dev):** r\n**Review (Regression):** r\n**Files:** f\n### Task 2.5: U\n**Priority:** P1\n**Area:** y\n**Depends On:** none\n**Acceptance Criteria:** c\n**Review (Dev):** r\n**Review (Regression):** r\n**Files:** f\n"

theorem chk20 : parse_depends "Task 2.5, task 3" = ["2.5", "3"] := by decide
theorem chk21 : parse_depends " none " = [] := by decide
theorem chk22 : parse_depends "later" = [] := by decide
theorem chk23 : parse_depends "Task1 Taskk 4  TASK  7.8.9" = ["7.8"] := by decide
theorem chk24 : Report.findings (check_plan "plan.md" exPlanSelf) =
    [⟨"ERROR", "Task 1 cannot depend on itself", "plan.md:5"⟩,
     ⟨"ERROR", "Task dependency cycle detected: 1 -> 1", "plan.md"⟩] := by decide
theorem chk25 : Report.findings (check_plan "plan.md" exPlanTwo) =
    [⟨"ERROR", "Task 1 depends on unknown Task 3", "plan.md:5"⟩] := by decide

/-- Every stored dependency edge target differs from its key and is a known
issue id. -/
def GoodEdges (imap : List (String × (Nat × List (String × JVal))))
    (E : List (String × List String)) : Prop :=
  ∀ p ∈ E, ∀ d ∈ p.2, d ≠ p.1 ∧ (dget imap d).isSome = true

theorem edgesAppend_good {imap : List (String × (Nat × List (String × JVal)))}
    {E : List (String × List String)} (hE : GoodEdges imap E) {k s : String}
    (hs : s ≠ k) (hknown : (dget imap s).isSome = true) :
    GoodEdges imap (edgesAppend E k s) := by
  intro p hp d hd
  obtain ⟨q, hq, hmap⟩ := List.mem_map.mp hp
  by_cases hqk : q.1 = k
  · rw [if_pos hqk] at hmap
    subst hmap
    rcases List.mem_append.mp hd with h | h
    · exact hE q hq d h
    · rw [List.mem_singleton] at h
      subst h
      exact ⟨fun hc => hs (hc.trans hqk), hknown⟩
  · rw [if_neg hqk] at hmap
    subst hmap
    exact hE q hq d hd

theorem depStep_good (ctx : IssuesCtx)
    (imap : List (String × (Nat × List (String × JVal)))) (issueId loc : String) :
    ∀ (deps : List JVal) (edges : List (String × List String)),
      GoodEdges imap edges →
      GoodEdges imap (depStep ctx imap issueId loc deps edges).2 := by
  intro deps
  induction deps with
  | nil =>
    intro edges hE
    exact hE
  | cons dep rest ih =>
    intro edges hE
    cases dep with
    | jstr s =>
      simp only [depStep]
      split
      · exact ih edges hE
      · split
        · exact ih edges hE
        · split
          · exact ih edges hE
          · refine ih _ (edgesAppend_good hE ?_ ?_)
            · intro h
              subst h
              simp_all
            · by_contra hk
              simp_all
    | jnull => exact ih edges hE
    | jbool b => exact ih edges hE
    | jint n => exact ih edges hE
    | jarr a => exact ih edges hE
    | jobj o => exact ih edges hE

theorem graphLoop_good (ctx : IssuesCtx)
    (imap : List (String × (Nat × List (String × JVal)))) :
    ∀ (entries : List (String × (Nat × List (String × JVal))))
      (edges : List (String × List String)),
      GoodEdges imap edges →
      GoodEdges imap (graphLoop ctx imap entries edges).2 := by
  intro entries
  induction entries with
  | nil =>
    intro edges hE
    exact hE
  | cons e rest ih =>
    intro edges hE
    obtain ⟨issueId, ln, issue⟩ := e
    simp only [graphLoop]
    split
    · exact ih _ (depStep_good ctx imap issueId _ _ edges hE)
    · exact ih edges hE

theorem depStep_self_reported (ctx : IssuesCtx)
    (imap : List (String × (Nat × List (String × JVal)))) (issueId loc : String) :
    ∀ (deps : List JVal) (edges : List (String × List String)),
      JVal.jstr issueId ∈ deps → pyStrip issueId.data ≠ [] →
      (⟨"ERROR", "Issue cannot depend on itself", loc⟩ : Finding) ∈
        (depStep ctx imap issueId loc deps edges).1 := by
  intro deps
  induction deps with
  | nil =>
    intro edges hmem
    cases hmem
  | cons dep rest ih =>
    intro edges hmem hne
    rcases List.mem_cons.mp hmem with h | h
    · subst h
      simp only [depStep]
      rw [if_neg hne]
      simp only [if_true]
      exact List.mem_cons_self _ _
    · cases dep with
      | jstr s =>
        simp only [depStep]
        split
        · exact List.mem_cons_of_mem _ (ih edges h hne)
        · split
          · exact List.mem_cons_of_mem _ (ih edges h hne)
          · split
            · exact List.mem_cons_of_mem _ (ih edges h hne)
            · exact ih _ h hne
      | jnull => exact List.mem_cons_of_mem _ (ih edges h hne)
      | jbool b => exact List.mem_cons_of_mem _ (ih edges h hne)
      | jint n => exact List.mem_cons_of_mem _ (ih edges h hne)
      | jarr a => exact List.mem_cons_of_mem _ (ih edges h hne)
      | jobj o => exact List.mem_cons_of_mem _ (ih edges h hne)

theorem depStep_unknown_reported (ctx : IssuesCtx)
    (imap : List (String × (Nat × List (String × JVal)))) (issueId loc s : String) :
    ∀ (deps : List JVal) (edges : List (String × List String)),
      JVal.jstr s ∈ deps → pyStrip s.data ≠ [] → s ≠ issueId →
      dget imap s = none →
      (⟨"ERROR", "Issue depends on unknown id `" ++ s ++ "`", loc⟩ : Finding) ∈
        (depStep ctx imap issueId loc deps edges).1 := by
  intro deps
  induction deps with
  | nil =>
    intro edges hmem
    cases hmem
  | cons dep rest ih =>
    intro edges hmem hne hnid hunk
    rcases List.mem_cons.mp hmem with h | h
    · subst h
      simp only [depStep]
      rw [if_neg hne, if_neg hnid, if_pos (by rw [hunk]; rfl)]
      exact List.mem_cons_self _ _
    · cases dep with
      | jstr s2 =>
        simp only [depStep]
        split
        · exact List.mem_cons_of_mem _ (ih edges h hne hnid hunk)
        · split
          · exact List.mem_cons_of_mem _ (ih edges h hne hnid hunk)
          · split
            · exact List.mem_cons_of_mem _ (ih edges h hne hnid hunk)
            · exact ih _ h hne hnid hunk
      | jnull => exact List.mem_cons_of_mem _ (ih edges h hne hnid hunk)
      | jbool b => exact List.mem_cons_of_mem _ (ih edges h hne hnid hunk)
      | jint n => exact List.mem_cons_of_mem _ (ih edges h hne hnid hunk)
      | jarr a => exact List.mem_cons_of_mem _ (ih edges h hne hnid hunk)
      | jobj o => exact List.mem_cons_of_mem _ (ih edges h hne hnid hunk)

theorem contains_of_mem {l : List String} {a : String} (h : a ∈ l) :
    l.contains a = true := by
  simpa using h

/-- A task id carrying a self-edge in the assembled (unfiltered) edge mapping
forces `check_plan` to emit a dependency-cycle ERROR. -/
theorem check_plan_self_cycle (planPath text : String) (tid : String)
    (hmem : tid ∈ planTaskIds (parse_tasks text))
    (hself : tid ∈ edgesGet (planEdges (parse_tasks text)) tid) :
    ∃ c, (⟨"ERROR", "Task dependency cycle detected: " ++
        String.intercalate " -> " c, planPath⟩ : Finding) ∈
      Report.findings (check_plan planPath text) := by
  cases htasks : parse_tasks text with
  | nil =>
    rw [htasks] at hmem
    simp [planTaskIds] at hmem
  | cons t ts =>
    rw [htasks] at hmem hself
    obtain ⟨r, hr⟩ := detectCycleO_total (planTaskIds (t :: ts)) (planEdges (t :: ts))
    cases r with
    | none =>
      have hfalse := detectCycleO_complete hr tid hmem [tid] (by simp)
      have htrue : stepsB (planEdges (t :: ts)) tid [tid] tid = true := by
        show ((edgesGet (planEdges (t :: ts)) tid).contains tid &&
          stepsB (planEdges (t :: ts)) tid [] tid) = true
        rw [contains_of_mem hself]
        simp [stepsB]
      rw [hfalse] at htrue
      cases htrue
    | some c =>
      refine ⟨c, ?_⟩
      have hdc : detect_cycle (planTaskIds (t :: ts)) (planEdges (t :: ts)) = some c := by
        rw [detect_cycle, hr]
        rfl
      simp only [check_plan, htasks, hdc]
      refine List.mem_append.mpr (Or.inr ?_)
      exact List.mem_singleton.mpr rfl

/-- **C7 counterexample**: in `check_plan`, a task depending on itself is
reported as its own ERROR but is NOT excluded from the edge mapping
(source line 295 assigns the raw dependency list), so the very same
reference additionally produces a dependency-cycle ERROR. -/
theorem C7_counterexample :
    (⟨"ERROR", "Task 1 cannot depend on itself", "plan.md:5"⟩ : Finding) ∈
      Report.findings (check_plan "plan.md" exPlanSelf) ∧
    (⟨"ERROR", "Task dependency cycle detected: 1 -> 1", "plan.md"⟩ : Finding) ∈
      Report.findings (check_plan "plan.md" exPlanSelf) ∧
    "1" ∈ edgesGet (planEdges (parse_tasks exPlanSelf)) "1" := by
  refine ⟨by decide, by decide, by decide⟩

/-- **C7** (amended: the exclusion holds in `check_issues` only; `check_plan`
reports self and unknown dependencies but passes the raw dependency lists to
`detect_cycle`, so a self-dependency additionally produces a cycle ERROR):
(1) every edge stored by the `check_issues` graph loop points to a known id
different from its source; (2)/(3) a (non-blank) self or unknown dependency
of an issue row is reported as its own ERROR; (4) in `check_plan`, a task id
with a self-edge in the assembled mapping always yields a dependency-cycle
ERROR finding on top of the self-dependency ERROR. -/
theorem C7_self_unknown_edges :
    (∀ (ctx : IssuesCtx) (imap : List (String × (Nat × List (String × JVal))))
        (entries : List (String × (Nat × List (String × JVal))))
        (edges : List (String × List String)),
      GoodEdges imap edges →
      GoodEdges imap (graphLoop ctx imap entries edges).2) ∧
    (∀ (ctx : IssuesCtx) (imap : List (String × (Nat × List (String × JVal))))
        (issueId loc : String) (deps : List JVal) (edges : List (String × List String)),
      JVal.jstr issueId ∈ deps → pyStrip issueId.data ≠ [] →
      (⟨"ERROR", "Issue cannot depend on itself", loc⟩ : Finding) ∈
        (depStep ctx imap issueId loc deps edges).1) ∧
    (∀ (ctx : IssuesCtx) (imap : List (String × (Nat × List (String × JVal))))
        (issueId loc s : String) (deps : List JVal) (edges : List (String × List String)),
      JVal.jstr s ∈ deps → pyStrip s.data ≠ [] → s ≠ issueId → dget imap s = none →
      (⟨"ERROR", "Issue depends on unknown id `" ++ s ++ "`", loc⟩ : Finding) ∈
        (depStep ctx imap issueId loc deps edges).1) ∧
    (∀ (planPath text tid : String),
      tid ∈ planTaskIds (parse_tasks text) →
      tid ∈ edgesGet (planEdges (parse_tasks text)) tid →
      ∃ c, (⟨"ERROR", "Task dependency cycle detected: " ++
          String.intercalate " -> " c, planPath⟩ : Finding) ∈
        Report.findings (check_plan planPath text)) :=
  ⟨fun ctx imap entries edges hE => graphLoop_good ctx imap entries edges hE,
   fun ctx imap issueId loc deps edges hmem hne =>
     depStep_self_reported ctx imap issueId loc deps edges hmem hne,
   fun ctx imap issueId loc s deps edges hmem hne hnid hunk =>
     depStep_unknown_reported ctx imap issueId loc s deps edges hmem hne hnid hunk,
   fun planPath text tid hmem hself => check_plan_self_cycle planPath text tid hmem hself⟩

theorem C7_witness :
    GoodEdges [("A", (2, exIssue "A" [] "pending" "pending" "pending" "uncommitted" false))]
      (graphLoop exCtx
        [("A", (2, exIssue "A" [] "pending" "pending" "pending" "uncommitted" false))]
        [("A", (2, exIssue "A" [] "pending" "pending" "pending" "uncommitted" false))]
        [("A", [])]).2 ∧
    (⟨"ERROR", "Issue cannot depend on itself", "issues.jsonl:2"⟩ : Finding) ∈
      (depStep exCtx [] "A" "issues.jsonl:2" [JVal.jstr "A"] []).1 ∧
    (⟨"ERROR", "Issue depends on unknown id `B`", "issues.jsonl:2"⟩ : Finding) ∈
      (depStep exCtx [] "A" "issues.jsonl:2" [JVal.jstr "B"] []).1 ∧
    (∃ c, (⟨"ERROR", "Task dependency cycle detected: " ++
        String.intercalate " -> " c, "plan.md"⟩ : Finding) ∈
      Report.findings (check_plan "plan.md" exPlanSelf)) :=
  ⟨C7_self_unknown_edges.1 exCtx
      [("A", (2, exIssue "A" [] "pending" "pending" "pending" "uncommitted" false))]
      [("A", (2, exIssue "A" [] "pending" "pending" "pending" "uncommitted" false))]
      [("A", [])]
      (fun p hp d hd => by
        rw [List.mem_singleton] at hp
        subst hp
        cases hd),
   C7_self_unknown_edges.2.1 exCtx [] "A" "issues.jsonl:2" [JVal.jstr "A"] []
     (List.mem_singleton.mpr rfl) (by decide),
   C7_self_unknown_edges.2.2.1 exCtx [] "A" "issues.jsonl:2" "B" [JVal.jstr "B"] []
     (List.mem_singleton.mpr rfl) (by decide) (by decide) rfl,
   C7_self_unknown_edges.2.2.2 "plan.md" exPlanSelf "1" (by decide) (by decide)⟩
